import Mathlib

/-!
# Verification of the codii Indexing & Retrieval Engine

A shallow embedding of the core components of the `codii` repository
(Merkle snapshot, chunk store, vector store, query processing, FTS
preprocessing, chunkers, hybrid RRF search, snapshot registry and the
indexing pipeline's deleting stage), together with theorems settling the
specification claims about them.

Python `dict`s are modelled as association lists (`List (κ × β)`) with the
usual first-match lookup; where a claim depends only on the map contents,
dictionary insertion is modelled as cons-after-erase, which agrees with
Python's dict up to iteration order.  Python strings are modelled as
`List Char` (a faithful code-point view) with `String` wrappers where
convenient.
-/

namespace Codii

/-! ## Association-list dictionaries -/

/-- First-match lookup in an association list (Python `d.get(k)` / `d[k]`). -/
def alookup {κ β : Type} [DecidableEq κ] (k : κ) : List (κ × β) → Option β
  | [] => none
  | (k', v) :: rest => if k' = k then some v else alookup k rest

/-- Erase every binding of key `k` (Python `del d[k]` on nodup-key dicts). -/
def aerase {κ β : Type} [DecidableEq κ] (k : κ) (m : List (κ × β)) : List (κ × β) :=
  m.filter (fun p => p.1 ≠ k)

/-- Dictionary insertion `d[k] = v`: the new binding shadows any old one.
Modelled as cons-after-erase; equal to Python's dict as a map. -/
def ainsert {κ β : Type} [DecidableEq κ] (k : κ) (v : β) (m : List (κ × β)) :
    List (κ × β) :=
  (k, v) :: aerase k m

theorem alookup_eq_none {κ β : Type} [DecidableEq κ] (k : κ) (m : List (κ × β)) :
    alookup k m = none ↔ k ∉ m.map Prod.fst := by
  induction m with
  | nil => simp [alookup]
  | cons p rest ih =>
    obtain ⟨k', v⟩ := p
    by_cases h : k' = k
    · subst h; simp [alookup]
    · simp only [alookup, if_neg h, List.map_cons, List.mem_cons, ih]
      constructor
      · intro hn hc
        exact hc.elim (fun he => h he.symm) hn
      · intro hn hm
        exact hn (Or.inr hm)

theorem mem_of_alookup_eq_some {κ β : Type} [DecidableEq κ] {k : κ} {v : β}
    {m : List (κ × β)} (h : alookup k m = some v) : (k, v) ∈ m := by
  induction m with
  | nil => simp [alookup] at h
  | cons p rest ih =>
    obtain ⟨k', v'⟩ := p
    by_cases hk : k' = k
    · subst hk
      rw [alookup, if_pos rfl] at h
      cases h
      exact List.mem_cons_self _ _
    · rw [alookup, if_neg hk] at h
      exact List.mem_cons_of_mem _ (ih h)

theorem alookup_eq_some_of_mem {κ β : Type} [DecidableEq κ] {k : κ} {v : β}
    {m : List (κ × β)} (hn : (m.map Prod.fst).Nodup) (h : (k, v) ∈ m) :
    alookup k m = some v := by
  induction m with
  | nil => simp at h
  | cons p rest ih =>
    obtain ⟨k', v'⟩ := p
    rcases List.mem_cons.mp h with h₀ | h₀
    · cases h₀
      simp [alookup]
    · have hk : k' ≠ k := by
        intro he
        subst he
        simp only [List.map_cons, List.nodup_cons] at hn
        exact hn.1 (List.mem_map.mpr ⟨(k', v), h₀, rfl⟩)
      simp only [alookup, if_neg hk]
      exact ih (by simpa using (List.nodup_cons.mp (by simpa using hn)).2) h₀

theorem aerase_cons {κ β : Type} [DecidableEq κ] (k : κ) (p : κ × β)
    (m : List (κ × β)) :
    aerase k (p :: m) = if p.1 = k then aerase k m else p :: aerase k m := by
  by_cases h : p.1 = k <;> simp [aerase, List.filter_cons, h]

theorem mem_aerase {κ β : Type} [DecidableEq κ] {p : κ × β} {k : κ}
    {m : List (κ × β)} : p ∈ aerase k m ↔ p ∈ m ∧ p.1 ≠ k := by
  simp [aerase, List.mem_filter]

theorem alookup_aerase {κ β : Type} [DecidableEq κ] (k k' : κ) (m : List (κ × β))
    (h : k ≠ k') : alookup k (aerase k' m) = alookup k m := by
  induction m with
  | nil => rfl
  | cons p rest ih =>
    obtain ⟨k₀, v⟩ := p
    rw [aerase_cons]
    by_cases h₀ : k₀ = k'
    · rw [if_pos h₀, ih]
      have : k₀ ≠ k := fun he => h (he ▸ h₀)
      simp [alookup, this]
    · rw [if_neg h₀]
      by_cases h₁ : k₀ = k <;> simp [alookup, h₁, ih]

theorem alookup_aerase_self {κ β : Type} [DecidableEq κ] (k : κ)
    (m : List (κ × β)) : alookup k (aerase k m) = none := by
  rw [alookup_eq_none]
  intro hmem
  obtain ⟨⟨k', v⟩, hp, hfst⟩ := List.mem_map.mp hmem
  exact (mem_aerase.mp hp).2 hfst

theorem alookup_of_perm {κ β : Type} [DecidableEq κ] {m₁ m₂ : List (κ × β)}
    (hn : (m₁.map Prod.fst).Nodup) (hp : m₁.Perm m₂) (k : κ) :
    alookup k m₁ = alookup k m₂ := by
  have hn₂ : (m₂.map Prod.fst).Nodup := (hp.map Prod.fst).nodup_iff.mp hn
  cases hv : alookup k m₁ with
  | none =>
    symm
    rw [alookup_eq_none]
    intro hmem
    obtain ⟨⟨k', v⟩, hpm, hfst⟩ := List.mem_map.mp hmem
    cases hfst
    have : (k', v) ∈ m₁ := hp.mem_iff.mpr hpm
    rw [alookup_eq_some_of_mem hn this] at hv
    exact Option.noConfusion hv
  | some v =>
    exact (alookup_eq_some_of_mem hn₂ (hp.mem_iff.mp (mem_of_alookup_eq_some hv))).symm

/-! ## Merkle snapshot (`src/codii/merkle/tree.py`)

The tree state is the `file_hashes` dict, modelled as an association list
of `(path, hash)` pairs.  The SHA-256 hex digest pipeline
(`hashlib.sha256(s.encode()).hexdigest()`) is abstracted as a function
`sha : String → String`; every theorem below is proved for an arbitrary
such function, hence in particular for SHA-256. -/

namespace Merkle

/-- One reduction level of `compute_root`'s `while` loop: combine adjacent
pairs (`for i in range(0, len(hashes), 2)`), promoting an odd final element
unchanged. -/
def mergeLevel (sha : String → String) : List String → List String
  | [] => []
  | [h] => [h]
  | h₁ :: h₂ :: rest => sha (h₁ ++ h₂) :: mergeLevel sha rest

theorem mergeLevel_length_lt (sha : String → String) (h₁ h₂ : String)
    (rest : List String) :
    (mergeLevel sha (h₁ :: h₂ :: rest)).length < (h₁ :: h₂ :: rest).length := by
  suffices H : ∀ l : List String, (mergeLevel sha l).length ≤ l.length by
    have := H rest
    simp only [mergeLevel, List.length_cons]
    omega
  intro l
  induction l using mergeLevel.induct sha with
  | case1 => simp [mergeLevel]
  | case2 h => simp [mergeLevel]
  | case3 h₁ h₂ rest ih => simp only [mergeLevel, List.length_cons]; omega

/-- The `while len(hashes) > 1` reduction loop of `compute_root`. -/
def reduceRoot (sha : String → String) : List String → List String
  | [] => []
  | [h] => [h]
  | h₁ :: h₂ :: rest => reduceRoot sha (mergeLevel sha (h₁ :: h₂ :: rest))
termination_by l => l.length
decreasing_by exact mergeLevel_length_lt sha h₁ h₂ rest

/-- `MerkleTree.compute_root`: empty map yields the sentinel hash
`sha256(b"empty")`; otherwise the hashes are taken in lexicographically
sorted path order and pairwise-reduced until one remains. -/
def computeRoot (sha : String → String) (fileHashes : List (String × String)) :
    String :=
  if fileHashes = [] then sha "empty"
  else
    (reduceRoot sha
      (((fileHashes.map Prod.fst).insertionSort (· ≤ ·)).map
        (fun p => (alookup p fileHashes).getD ""))).headD ""

/-- `MerkleTree.add_file`: re-adding the same path overwrites. -/
def addFile (path hash : String) (fileHashes : List (String × String)) :
    List (String × String) :=
  ainsert path hash fileHashes

/-- `MerkleTree.diff`: set algebra on paths; `modified` is the subset of
common paths whose hashes differ (`self` plays the new tree, `other` the
old one). -/
def diff (newT oldT : List (String × String)) :
    List String × List String × List String :=
  let newPaths := newT.map Prod.fst
  let oldPaths := oldT.map Prod.fst
  let added := newPaths.filter (fun p => p ∉ oldPaths)
  let removed := oldPaths.filter (fun p => p ∉ newPaths)
  let modified := newPaths.filter
    (fun p => p ∈ oldPaths ∧ alookup p newT ≠ alookup p oldT)
  (added, removed, modified)

end Merkle

end Codii

/-- **C4.** `compute_root` is a pure function of the `file_hashes` map: the
empty map yields the hash of the fixed sentinel string `"empty"`, a
singleton map yields that entry's hash, and any two trees whose
`file_hashes` dicts hold the same entries (possibly inserted in different
orders, i.e. the association lists are permutations with duplicate-free
paths) have byte-equal roots — for every choice of the underlying hash
function, hence for SHA-256. -/
theorem C4_merkle_root_deterministic (sha : String → String)
    (m₁ m₂ : List (String × String)) (path hash : String)
    (hnodup : (m₁.map Prod.fst).Nodup) (hperm : m₁.Perm m₂) :
    Codii.Merkle.computeRoot sha [] = sha "empty" ∧
    Codii.Merkle.computeRoot sha [(path, hash)] = hash ∧
    Codii.Merkle.computeRoot sha m₁ = Codii.Merkle.computeRoot sha m₂ := by
  refine ⟨rfl, ?_, ?_⟩
  · simp [Codii.Merkle.computeRoot, Codii.Merkle.reduceRoot,
      List.insertionSort, List.orderedInsert, Codii.alookup]
  · rcases hm₁ : m₁ with - | ⟨p, rest⟩
    · subst hm₁
      rw [List.nil_perm.mp hperm]
    · have hne₁ : m₁ ≠ [] := by rw [hm₁]; simp
      have hne₂ : m₂ ≠ [] := by
        intro h
        subst h
        rw [List.perm_nil.mp hperm] at hm₁
        exact List.noConfusion hm₁
      subst hm₁
      have hkeys : ((p :: rest).map Prod.fst).Perm (m₂.map Prod.fst) :=
        hperm.map Prod.fst
      haveI : IsAntisymm String (· ≤ ·) := ⟨fun _ _ h h' => le_antisymm h h'⟩
      have hsorted :
          ((p :: rest).map Prod.fst).insertionSort (· ≤ ·) =
          (m₂.map Prod.fst).insertionSort (· ≤ ·) :=
        List.eq_of_perm_of_sorted
          (((List.perm_insertionSort _ _).trans hkeys).trans
            (List.perm_insertionSort _ _).symm)
          (List.sorted_insertionSort _ _)
          (List.sorted_insertionSort _ _)
      have hhash :
          (((p :: rest).map Prod.fst).insertionSort (· ≤ ·)).map
            (fun q => (Codii.alookup q (p :: rest)).getD "") =
          ((m₂.map Prod.fst).insertionSort (· ≤ ·)).map
            (fun q => (Codii.alookup q m₂).getD "") := by
        rw [hsorted]
        apply List.map_congr_left
        intro x _
        rw [Codii.alookup_of_perm hnodup hperm]
      simp only [Codii.Merkle.computeRoot, if_neg hne₁, if_neg hne₂]
      rw [hhash]

/-- Witness for C4 at concrete inputs: two insertion orders of the same
two-file map. -/
theorem C4_merkle_root_deterministic_witness :
    (([("b", "hb"), ("a", "ha")].map (Prod.fst (α := String) (β := String))).Nodup ∧
      [("b", "hb"), ("a", "ha")].Perm [("a", "ha"), ("b", "hb")]) ∧
    (Codii.Merkle.computeRoot (fun s => "H" ++ s) [] = (fun s => "H" ++ s) "empty" ∧
      Codii.Merkle.computeRoot (fun s => "H" ++ s) [("p", "h")] = "h" ∧
      Codii.Merkle.computeRoot (fun s => "H" ++ s) [("b", "hb"), ("a", "ha")] =
        Codii.Merkle.computeRoot (fun s => "H" ++ s) [("a", "ha"), ("b", "hb")]) :=
  ⟨⟨by decide, by decide⟩,
    C4_merkle_root_deterministic (fun s => "H" ++ s) _ _ "p" "h" (by decide) (by decide)⟩

namespace Codii

/-! ## Snapshot registry (`src/codii/storage/snapshot.py`) -/

namespace Registry

/-- The `CodebaseStatus` dataclass exactly as declared in
`src/codii/storage/snapshot.py` (nine fields; note it has **no**
`files_to_process` or `total_files` field). -/
structure CodebaseStatus where
  path : String
  status : String
  progress : Nat := 0
  currentStage : String := ""
  merkleRoot : Option String := none
  indexedFiles : Nat := 0
  totalChunks : Nat := 0
  lastUpdated : Option String := none
  errorMessage : Option String := none
deriving DecidableEq, Repr

/-- The field names of the `CodebaseStatus` dataclass, in declaration
order (what `dataclasses.asdict` serialises). -/
def codebaseStatusFields : List String :=
  ["path", "status", "progress", "current_stage", "merkle_root",
   "indexed_files", "total_chunks", "last_updated", "error_message"]

/-- The parameters of `SnapshotManager.update_progress` after `self`, in
declaration order: `(path, progress, stage, indexed_files=0,
total_chunks=0)`.  The function declares no `*args`. -/
def updateProgressParams : List String :=
  ["path", "progress", "stage", "indexed_files", "total_chunks"]

/-- Number of positional arguments the indexing pipeline passes in its
preparing-stage progress call
`self.snapshot_manager.update_progress(path, 10, "preparing", 0, 0,
total_files, 0)` (`src/codii/tools/index_codebase.py`, lines 247-249);
the chunking/embedding/indexing-stage calls pass the same seven. -/
def pipelineUpdateProgressCallArity : Nat := 7

/-- Python positional-call legality: a call with `n` positional arguments
to a function with `p` declared parameters (and no `*args`) raises
`TypeError` unless `n ≤ p`. -/
def pythonCallOk (nArgs nParams : Nat) : Bool := nArgs ≤ nParams

/-- The state of the registry's backing file as seen by `json.load`. -/
inductive SnapshotFile where
  /-- the file does not exist (`FileNotFoundError`) -/
  | missing : SnapshotFile
  /-- the file exists but is not parseable JSON (`json.JSONDecodeError`) -/
  | malformed : SnapshotFile
  /-- the file parses to `{"codebases": {...}}` -/
  | valid : List (String × CodebaseStatus) → SnapshotFile
deriving DecidableEq

/-- `SnapshotManager._read_snapshot`: returns the parsed payload, and the
empty registry `{"codebases": {}}` when the file is missing or the JSON is
malformed (both exception types are caught). -/
def readSnapshot : SnapshotFile → List (String × CodebaseStatus)
  | .missing => []
  | .malformed => []
  | .valid cbs => cbs

/-- `SnapshotManager.get_status`: look the path up in the parsed registry;
absent paths yield a synthetic `not_found` record. -/
def getStatus (f : SnapshotFile) (path : String) : CodebaseStatus :=
  match alookup path (readSnapshot f) with
  | some st => st
  | none => { path := path, status := "not_found" }

/-- `SnapshotManager.get_all_codebases`: the parsed registry as a map. -/
def getAllCodebases (f : SnapshotFile) : List (String × CodebaseStatus) :=
  readSnapshot f

end Registry

/-! ## Chunk store (`src/codii/storage/database.py`) -/

namespace ChunkStore

/-- One row of the `chunks` table, i.e. the 6-tuple bound by the INSERT in
`insert_chunk` / `insert_chunks_batch` (`created_at` is defaulted by the
schema and never read by the components under verification). -/
structure ChunkRow where
  content : String
  path : String
  startLine : Nat
  endLine : Nat
  language : String
  chunkType : String
deriving DecidableEq, Repr

/-- SQLite connection state for the `chunks` table: committed rows,
rows executed inside the open transaction, and the `AUTOINCREMENT`
counter (first assigned id is 1). -/
structure DBState where
  committed : List (Nat × ChunkRow)
  pending : List (Nat × ChunkRow)
  nextId : Nat
deriving DecidableEq, Repr

def DBState.empty : DBState := ⟨[], [], 1⟩

/-- Executing one `INSERT INTO chunks ...`: the row joins the open
transaction with the next monotonically assigned id, which is also the
cursor's `lastrowid`. -/
def execInsert (db : DBState) (c : ChunkRow) : DBState × Nat :=
  (⟨db.committed, db.pending ++ [(db.nextId, c)], db.nextId + 1⟩, db.nextId)

/-- `conn.commit()`: the open transaction's rows become durable. -/
def commit (db : DBState) : DBState :=
  ⟨db.committed ++ db.pending, [], db.nextId⟩

/-- `Database.insert_chunk`: one INSERT, one COMMIT, returns
`cursor.lastrowid`. -/
def insertChunk (db : DBState) (c : ChunkRow) : DBState × Nat :=
  let r := execInsert db c
  (commit r.1, r.2)

/-- `Database.insert_chunks_batch`: `executemany` of all rows followed by a
single COMMIT.  The Python function body contains no `return` statement,
so the call evaluates to `None`. -/
def insertChunksBatch (db : DBState) (cs : List ChunkRow) :
    DBState × Option Nat :=
  (commit (cs.foldl (fun d c => (execInsert d c).1) db), none)

/-- Rows `cs` paired with consecutive ids starting at `n`. -/
def enumFromId (n : Nat) : List ChunkRow → List (Nat × ChunkRow)
  | [] => []
  | c :: rest => (n, c) :: enumFromId (n + 1) rest

theorem foldl_execInsert (cs : List ChunkRow) (db : DBState) :
    cs.foldl (fun d c => (execInsert d c).1) db =
      ⟨db.committed, db.pending ++ enumFromId db.nextId cs,
        db.nextId + cs.length⟩ := by
  induction cs generalizing db with
  | nil => simp [enumFromId]
  | cons c rest ih =>
    rw [List.foldl_cons, ih]
    simp only [execInsert, enumFromId, List.append_assoc, List.cons_append,
      List.nil_append, List.length_cons, DBState.mk.injEq]
    refine ⟨trivial, trivial, by omega⟩

/-- `Database.get_chunk_ids_by_path`:
`SELECT id FROM chunks WHERE path = ?` over committed rows. -/
def getChunkIdsByPath (db : DBState) (p : String) : List Nat :=
  (db.committed.filter (fun r => r.2.path = p)).map Prod.fst

/-- `Database.delete_chunks_by_path`:
`DELETE FROM chunks WHERE path = ?` + COMMIT, returning `rowcount`. -/
def deleteChunksByPath (db : DBState) (p : String) : DBState × Nat :=
  (⟨db.committed.filter (fun r => r.2.path ≠ p), db.pending, db.nextId⟩,
    (db.committed.filter (fun r => r.2.path = p)).length)

end ChunkStore

end Codii

/-- **C2 (code bug).** The spec (and the pipeline, the CLI and the status
tool, which all consume these fields) require
`update_progress(path, progress, stage, indexed_files, total_chunks,
total_files?, files_to_process?)` and `CodebaseStatus` fields
`files_to_process` / `total_files`; but the `SnapshotManager` in
`src/codii/storage/snapshot.py` declares neither: the pipeline's
seven-argument progress calls exceed `update_progress`'s five declared
parameters (a `TypeError` at runtime, caught by the worker's handler,
which marks the run failed), and the two fields are absent from the
dataclass. -/
theorem C2_update_progress_signature_bug :
    Codii.Registry.pythonCallOk Codii.Registry.pipelineUpdateProgressCallArity
      Codii.Registry.updateProgressParams.length = false ∧
    "files_to_process" ∉ Codii.Registry.codebaseStatusFields ∧
    "total_files" ∉ Codii.Registry.codebaseStatusFields := by
  refine ⟨rfl, ?_, ?_⟩ <;> decide

/-- **C10.** If the registry's backing file is missing or holds malformed
JSON, every read behaves as if no codebases are tracked: `get_status`
returns the synthetic `not_found` record for any path, and
`get_all_codebases` returns the empty map. -/
theorem C10_registry_read_resilient (f : Codii.Registry.SnapshotFile)
    (path : String)
    (h : f = Codii.Registry.SnapshotFile.missing ∨
         f = Codii.Registry.SnapshotFile.malformed) :
    Codii.Registry.getStatus f path =
      { path := path, status := "not_found" } ∧
    Codii.Registry.getAllCodebases f = [] := by
  rcases h with h | h <;> subst h <;>
    exact ⟨rfl, rfl⟩

/-- Witness for C10 at a concrete input: a missing registry file and the
path `/repo`. -/
theorem C10_registry_read_resilient_witness :
    (Codii.Registry.SnapshotFile.missing = Codii.Registry.SnapshotFile.missing ∨
      Codii.Registry.SnapshotFile.missing = Codii.Registry.SnapshotFile.malformed) ∧
    (Codii.Registry.getStatus Codii.Registry.SnapshotFile.missing "/repo" =
        { path := "/repo", status := "not_found" } ∧
      Codii.Registry.getAllCodebases Codii.Registry.SnapshotFile.missing = []) :=
  ⟨Or.inl rfl,
    C10_registry_read_resilient Codii.Registry.SnapshotFile.missing "/repo" (Or.inl rfl)⟩

/-- A concrete chunk row used in counterexamples and witnesses. -/
def Codii.ChunkStore.sampleRow : Codii.ChunkStore.ChunkRow :=
  ⟨"def main: pass", "/repo/main.py", 1, 1, "python", "function"⟩

/-- **C6 (counterexample).** The claim "insert_chunks_batch ... returns the
last assigned chunk id" is false: inserting one row into an empty store
assigns id 1, but the call returns `None` (the Python body has no
`return`), not 1. -/
theorem C6_counterexample_returns_none :
    (Codii.ChunkStore.insertChunksBatch Codii.ChunkStore.DBState.empty
      [Codii.ChunkStore.sampleRow]).2 = none ∧
    (Codii.ChunkStore.insertChunksBatch Codii.ChunkStore.DBState.empty
      [Codii.ChunkStore.sampleRow]).2 ≠ some 1 := by
  exact ⟨rfl, by decide⟩

/-- **C6 (amended).** `insert_chunks_batch` commits atomically per call —
after the call every row of the batch is durable with consecutive
monotonically assigned ids and nothing is left in the open transaction —
but it returns no value (`None`); it is `insert_chunk` that returns the
assigned id. -/
theorem C6_insert_chunks_batch (db : Codii.ChunkStore.DBState)
    (cs : List Codii.ChunkStore.ChunkRow) :
    Codii.ChunkStore.insertChunksBatch db cs =
      (⟨db.committed ++ db.pending ++ Codii.ChunkStore.enumFromId db.nextId cs,
        [], db.nextId + cs.length⟩, none) := by
  simp only [Codii.ChunkStore.insertChunksBatch,
    Codii.ChunkStore.foldl_execInsert, Codii.ChunkStore.commit,
    List.append_assoc]

namespace Codii

/-! ## Vector store (`src/codii/indexers/vector_indexer.py`) -/

namespace VectorStore

/-- In-memory state of a `VectorIndexer`: the two id maps, the set of
vector ids that `hnswlib`'s `mark_deleted` has tombstoned in the ANN
graph, and the monotonic vector-id counter.  The float payloads of the
vectors play no role in any claim about the maps and are not modelled. -/
structure VIState where
  /-- `_id_mapping`: vector_id → chunk_id -/
  idMapping : List (Nat × Nat)
  /-- `_reverse_mapping`: chunk_id → vector_id -/
  revMapping : List (Nat × Nat)
  /-- vector ids passed to `index.mark_deleted` -/
  tombstones : List Nat
  /-- `_next_id` -/
  nextId : Nat
deriving DecidableEq, Repr

def VIState.empty : VIState := ⟨[], [], [], 0⟩

/-- The `for vector_id, chunk_id in zip(vector_ids, chunk_ids)` update
loop of `add_vectors`: each pair is written into both dicts. -/
def addPairs (pairs : List (Nat × Nat)) (vi : VIState) : VIState :=
  pairs.foldl
    (fun st p =>
      { st with
        idMapping := ainsert p.1 p.2 st.idMapping
        revMapping := ainsert p.2 p.1 st.revMapping })
    vi

/-- `VectorIndexer.add_vectors`: no-op on an empty id list (the
`if not chunk_ids` guard; the `len(vectors) == 0` guard coincides with it
because one vector is supplied per chunk id); otherwise the chunk ids
receive consecutive vector ids from the monotonic counter
(`list(range(start_id, end_id))`) and both maps are updated. -/
def addVectors (vi : VIState) (chunkIds : List Nat) : VIState :=
  if chunkIds = [] then vi
  else
    { addPairs ((List.range' vi.nextId chunkIds.length).zip chunkIds) vi with
        nextId := vi.nextId + chunkIds.length }

/-- `VectorIndexer.remove_by_chunk_id`: returns `False` for unmapped chunk
ids; otherwise marks the vector deleted in the graph and deletes the entry
from both dicts. -/
def removeByChunkId (vi : VIState) (chunkId : Nat) : VIState × Bool :=
  match alookup chunkId vi.revMapping with
  | none => (vi, false)
  | some vectorId =>
      ({ idMapping := aerase vectorId vi.idMapping
         revMapping := aerase chunkId vi.revMapping
         tombstones := vectorId :: vi.tombstones
         nextId := vi.nextId }, true)

/-- Modelled from the spec: `remove_by_chunk_ids(chunk_ids) →
removed_count` is called by the indexing pipeline's deleting stage and
pinned by the repository's tests, but its definition is absent from the
sources; per the spec it soft-deletes each listed chunk's vector and
returns the count of entries removed, i.e. it folds `remove_by_chunk_id`
over the list counting successful removals. -/
def removeByChunkIds (vi : VIState) (chunkIds : List Nat) : VIState × Nat :=
  chunkIds.foldl
    (fun acc cid =>
      let r := removeByChunkId acc.1 cid
      (r.1, acc.2 + (if r.2 then 1 else 0)))
    (vi, 0)

/-- The two id maps are mutual inverses over live entries: keys are
duplicate-free and `(v, c)` is a forward entry iff `(c, v)` is a reverse
entry. -/
def MutualInverse (vi : VIState) : Prop :=
  (vi.idMapping.map Prod.fst).Nodup ∧
  (vi.revMapping.map Prod.fst).Nodup ∧
  (∀ p ∈ vi.idMapping, (p.2, p.1) ∈ vi.revMapping) ∧
  (∀ p ∈ vi.revMapping, (p.2, p.1) ∈ vi.idMapping)

instance (vi : VIState) : Decidable (MutualInverse vi) := by
  unfold MutualInverse; infer_instance

/-- Every soft-deleted vector entry is absent from both maps. -/
def TombstonesAbsent (vi : VIState) : Prop :=
  ∀ v ∈ vi.tombstones,
    v ∉ vi.idMapping.map Prod.fst ∧ v ∉ vi.revMapping.map Prod.snd

instance (vi : VIState) : Decidable (TombstonesAbsent vi) := by
  unfold TombstonesAbsent; infer_instance

/-- All vector ids ever issued are below the monotonic counter. -/
def IdsBounded (vi : VIState) : Prop :=
  (∀ v ∈ vi.idMapping.map Prod.fst, v < vi.nextId) ∧
  (∀ v ∈ vi.tombstones, v < vi.nextId)

instance (vi : VIState) : Decidable (IdsBounded vi) := by
  unfold IdsBounded; infer_instance

/-- The vector-store invariant of C9. -/
def Inv (vi : VIState) : Prop :=
  MutualInverse vi ∧ TombstonesAbsent vi ∧ IdsBounded vi

instance (vi : VIState) : Decidable (Inv vi) := by
  unfold Inv; infer_instance

/-- An externally invokable mutating operation on the vector store. -/
inductive VOp where
  | add : List Nat → VOp
  | removeOne : Nat → VOp
  | removeMany : List Nat → VOp
deriving DecidableEq, Repr

def applyOp (vi : VIState) : VOp → VIState
  | .add ids => addVectors vi ids
  | .removeOne cid => (removeByChunkId vi cid).1
  | .removeMany cids => (removeByChunkIds vi cids).1

def applyOps (vi : VIState) (ops : List VOp) : VIState :=
  ops.foldl applyOp vi

/-- A call to `add_vectors` is fresh when the chunk ids are pairwise
distinct and none of them is currently mapped.  (The indexing pipeline
always satisfies this: it adds freshly assigned AUTOINCREMENT chunk ids.) -/
def FreshAdd (vi : VIState) (ids : List Nat) : Prop :=
  ids.Nodup ∧ ∀ cid ∈ ids, alookup cid vi.revMapping = none

instance (vi : VIState) (ids : List Nat) : Decidable (FreshAdd vi ids) := by
  unfold FreshAdd; infer_instance

/-- A trace of operations in which every `add_vectors` call is fresh at
the state where it executes. -/
def GoodTrace : VIState → List VOp → Prop
  | _, [] => True
  | vi, op :: rest =>
      (match op with
        | .add ids => FreshAdd vi ids
        | _ => True) ∧
      GoodTrace (applyOp vi op) rest

instance instDecGoodTrace : (vi : VIState) → (ops : List VOp) →
    Decidable (GoodTrace vi ops)
  | _, [] => isTrue trivial
  | vi, op :: rest =>
      have : Decidable (GoodTrace (applyOp vi op) rest) := instDecGoodTrace _ _
      by unfold GoodTrace; rcases op <;> exact instDecidableAnd

end VectorStore

end Codii

namespace Codii

theorem aerase_eq_self {κ β : Type} [DecidableEq κ] {k : κ} {m : List (κ × β)}
    (h : k ∉ m.map Prod.fst) : aerase k m = m := by
  induction m with
  | nil => rfl
  | cons p rest ih =>
    simp only [List.map_cons, List.mem_cons, not_or] at h
    rw [aerase_cons, if_neg (fun he => h.1 he.symm), ih h.2]

theorem aerase_sublist {κ β : Type} [DecidableEq κ] (k : κ) (m : List (κ × β)) :
    (aerase k m).Sublist m :=
  List.filter_sublist m

theorem eq_of_mem_nodupKeys {κ β : Type} [DecidableEq κ] {k : κ} {v₁ v₂ : β}
    {m : List (κ × β)} (hn : (m.map Prod.fst).Nodup)
    (h₁ : (k, v₁) ∈ m) (h₂ : (k, v₂) ∈ m) : v₁ = v₂ := by
  have e₁ := alookup_eq_some_of_mem hn h₁
  have e₂ := alookup_eq_some_of_mem hn h₂
  rw [e₁] at e₂
  exact Option.some.injEq _ _ ▸ e₂

theorem ainsert_eq_cons {κ β : Type} [DecidableEq κ] {k : κ} (v : β)
    {m : List (κ × β)} (h : k ∉ m.map Prod.fst) : ainsert k v m = (k, v) :: m := by
  rw [ainsert, aerase_eq_self h]

namespace VectorStore

theorem addPairs_inv (pairs : List (Nat × Nat)) (vi : VIState)
    (hMI : MutualInverse vi) (hTA : TombstonesAbsent vi)
    (hvN : (pairs.map Prod.fst).Nodup) (hcN : (pairs.map Prod.snd).Nodup)
    (hfresh : ∀ p ∈ pairs,
      p.1 ∉ vi.idMapping.map Prod.fst ∧ p.1 ∉ vi.revMapping.map Prod.snd ∧
      p.1 ∉ vi.tombstones ∧ p.2 ∉ vi.revMapping.map Prod.fst ∧
      p.2 ∉ vi.idMapping.map Prod.snd) :
    MutualInverse (addPairs pairs vi) ∧ TombstonesAbsent (addPairs pairs vi) ∧
    (addPairs pairs vi).tombstones = vi.tombstones ∧
    (∀ v ∈ (addPairs pairs vi).idMapping.map Prod.fst,
      v ∈ vi.idMapping.map Prod.fst ∨ v ∈ pairs.map Prod.fst) ∧
    (addPairs pairs vi).nextId = vi.nextId := by
  induction pairs generalizing vi with
  | nil => exact ⟨hMI, hTA, rfl, fun v hv => Or.inl hv, rfl⟩
  | cons p rest ih =>
    obtain ⟨v, c⟩ := p
    obtain ⟨hMI₁, hMI₂, hfw, hbw⟩ := hMI
    obtain ⟨hv₁, hv₂, hv₃, hc₁, hc₂⟩ := hfresh (v, c) (List.mem_cons_self _ _)
    have hstep : addPairs ((v, c) :: rest) vi =
        addPairs rest
          { vi with idMapping := (v, c) :: vi.idMapping,
                    revMapping := (c, v) :: vi.revMapping } := by
      simp only [addPairs, List.foldl_cons]
      rw [ainsert_eq_cons _ hv₁, ainsert_eq_cons _ hc₁]
    set vi' : VIState :=
      { vi with idMapping := (v, c) :: vi.idMapping,
                revMapping := (c, v) :: vi.revMapping } with hvi'
    have hMI' : MutualInverse vi' := by
      refine ⟨?_, ?_, ?_, ?_⟩
      · exact List.nodup_cons.mpr ⟨hv₁, hMI₁⟩
      · exact List.nodup_cons.mpr ⟨hc₁, hMI₂⟩
      · intro q hq
        rcases List.mem_cons.mp hq with h | h
        · cases h; exact List.mem_cons_self _ _
        · exact List.mem_cons_of_mem _ (hfw q h)
      · intro q hq
        rcases List.mem_cons.mp hq with h | h
        · cases h; exact List.mem_cons_self _ _
        · exact List.mem_cons_of_mem _ (hbw q h)
    have hTA' : TombstonesAbsent vi' := by
      intro t ht
      obtain ⟨ht₁, ht₂⟩ := hTA t ht
      have htv : t ≠ v := fun he => hv₃ (he ▸ ht)
      constructor
      · simp only [hvi', List.map_cons, List.mem_cons, not_or]
        exact ⟨htv, ht₁⟩
      · simp only [hvi', List.map_cons, List.mem_cons, not_or]
        exact ⟨htv, ht₂⟩
    have hvN' : (rest.map Prod.fst).Nodup := (List.nodup_cons.mp hvN).2
    have hcN' : (rest.map Prod.snd).Nodup := (List.nodup_cons.mp hcN).2
    have hfresh' : ∀ q ∈ rest,
        q.1 ∉ vi'.idMapping.map Prod.fst ∧ q.1 ∉ vi'.revMapping.map Prod.snd ∧
        q.1 ∉ vi'.tombstones ∧ q.2 ∉ vi'.revMapping.map Prod.fst ∧
        q.2 ∉ vi'.idMapping.map Prod.snd := by
      intro q hq
      obtain ⟨hq₁, hq₂, hq₃, hq₄, hq₅⟩ := hfresh q (List.mem_cons_of_mem _ hq)
      have hqv : q.1 ≠ v := by
        intro he
        exact (List.nodup_cons.mp hvN).1 (he ▸ List.mem_map.mpr ⟨q, hq, rfl⟩)
      have hqc : q.2 ≠ c := by
        intro he
        exact (List.nodup_cons.mp hcN).1 (he ▸ List.mem_map.mpr ⟨q, hq, rfl⟩)
      refine ⟨?_, ?_, hq₃, ?_, ?_⟩ <;>
        simp only [hvi', List.map_cons, List.mem_cons, not_or] <;>
        exact ⟨by assumption, by assumption⟩
    obtain ⟨rMI, rTA, rT, rK, rN⟩ := ih vi' hMI' hTA' hvN' hcN' hfresh'
    rw [hstep]
    refine ⟨rMI, rTA, rT, ?_, rN⟩
    intro x hx
    rcases rK x hx with h | h
    · simp only [hvi', List.map_cons, List.mem_cons] at h
      rcases h with h | h
      · exact Or.inr (by simp [h])
      · exact Or.inl h
    · exact Or.inr (List.mem_cons_of_mem _ h)

end VectorStore

end Codii

namespace Codii.VectorStore

theorem addVectors_inv (vi : VIState) (ids : List Nat)
    (hInv : Inv vi) (hFresh : FreshAdd vi ids) : Inv (addVectors vi ids) := by
  obtain ⟨hMI, hTA, hB⟩ := hInv
  by_cases hnil : ids = []
  · subst hnil
    simpa [addVectors] using ⟨hMI, hTA, hB⟩
  · rw [addVectors, if_neg hnil]
    have hlen : (List.range' vi.nextId ids.length).length = ids.length :=
      List.length_range' _ _ _
    have hfst : ((List.range' vi.nextId ids.length).zip ids).map Prod.fst =
        List.range' vi.nextId ids.length :=
      List.map_fst_zip _ _ hlen.le
    have hsnd : ((List.range' vi.nextId ids.length).zip ids).map Prod.snd = ids :=
      List.map_snd_zip _ _ hlen.ge
    have hfresh : ∀ p ∈ (List.range' vi.nextId ids.length).zip ids,
        p.1 ∉ vi.idMapping.map Prod.fst ∧ p.1 ∉ vi.revMapping.map Prod.snd ∧
        p.1 ∉ vi.tombstones ∧ p.2 ∉ vi.revMapping.map Prod.fst ∧
        p.2 ∉ vi.idMapping.map Prod.snd := by
      intro p hp
      have hp₁ : p.1 ∈ List.range' vi.nextId ids.length := by
        rw [← hfst]; exact List.mem_map.mpr ⟨p, hp, rfl⟩
      have hp₂ : p.2 ∈ ids := by
        rw [← hsnd]; exact List.mem_map.mpr ⟨p, hp, rfl⟩
      have hge : vi.nextId ≤ p.1 := (List.mem_range'_1.mp hp₁).1
      refine ⟨?_, ?_, ?_, ?_, ?_⟩
      · intro hmem
        exact absurd (hB.1 _ hmem) (not_lt.mpr hge)
      · intro hmem
        obtain ⟨⟨c', v'⟩, hcv, hv⟩ := List.mem_map.mp hmem
        cases hv
        have : ((c', p.1).2, (c', p.1).1) ∈ vi.idMapping := hMI.2.2.2 _ hcv
        exact absurd (hB.1 _ (List.mem_map.mpr ⟨_, this, rfl⟩)) (not_lt.mpr hge)
      · intro hmem
        exact absurd (hB.2 _ hmem) (not_lt.mpr hge)
      · intro hmem
        have := (alookup_eq_none _ _).mp (hFresh.2 _ hp₂)
        exact this hmem
      · intro hmem
        obtain ⟨⟨v', c'⟩, hvc, hc⟩ := List.mem_map.mp hmem
        cases hc
        have : ((v', p.2).2, (v', p.2).1) ∈ vi.revMapping := hMI.2.2.1 _ hvc
        exact (alookup_eq_none _ _).mp (hFresh.2 _ hp₂)
          (List.mem_map.mpr ⟨_, this, rfl⟩)
    have hvN : (((List.range' vi.nextId ids.length).zip ids).map Prod.fst).Nodup := by
      rw [hfst]; exact List.nodup_range' _ _
    have hcN : (((List.range' vi.nextId ids.length).zip ids).map Prod.snd).Nodup := by
      rw [hsnd]; exact hFresh.1
    obtain ⟨rMI, rTA, rT, rK, rN⟩ :=
      addPairs_inv ((List.range' vi.nextId ids.length).zip ids) vi hMI hTA hvN hcN hfresh
    set final := addPairs ((List.range' vi.nextId ids.length).zip ids) vi
    have hMI' : MutualInverse { final with nextId := vi.nextId + ids.length } := by
      obtain ⟨a, b, c, d⟩ := rMI
      exact ⟨a, b, c, d⟩
    have hTA' : TombstonesAbsent { final with nextId := vi.nextId + ids.length } := by
      intro t ht
      exact rTA t ht
    refine ⟨hMI', hTA', ?_, ?_⟩
    · intro v hv
      rcases rK v hv with h | h
      · exact lt_of_lt_of_le (hB.1 _ h) (Nat.le_add_right _ _)
      · rw [hfst] at h
        exact (List.mem_range'_1.mp h).2
    · intro t ht
      rw [rT] at ht
      exact lt_of_lt_of_le (hB.2 _ ht) (Nat.le_add_right _ _)

theorem removeByChunkId_eq_of_lookup_some {vi : VIState} {cid vid : Nat}
    (hl : alookup cid vi.revMapping = some vid) :
    removeByChunkId vi cid =
      ({ idMapping := aerase vid vi.idMapping
         revMapping := aerase cid vi.revMapping
         tombstones := vid :: vi.tombstones
         nextId := vi.nextId }, true) := by
  rw [removeByChunkId, hl]

theorem removeByChunkId_eq_of_lookup_none {vi : VIState} {cid : Nat}
    (hl : alookup cid vi.revMapping = none) :
    removeByChunkId vi cid = (vi, false) := by
  rw [removeByChunkId, hl]

theorem removeByChunkId_mutualInverse (vi : VIState) (cid : Nat)
    (h : MutualInverse vi) : MutualInverse (removeByChunkId vi cid).1 := by
  obtain ⟨hn₁, hn₂, hfw, hbw⟩ := h
  cases hl : alookup cid vi.revMapping with
  | none =>
    rw [removeByChunkId_eq_of_lookup_none hl]
    exact ⟨hn₁, hn₂, hfw, hbw⟩
  | some vid =>
    rw [removeByChunkId_eq_of_lookup_some hl]
    have hmem : (cid, vid) ∈ vi.revMapping := mem_of_alookup_eq_some hl
    have hmemI : (vid, cid) ∈ vi.idMapping := hbw _ hmem
    refine ⟨((aerase_sublist _ _).map Prod.fst).nodup hn₁,
      ((aerase_sublist _ _).map Prod.fst).nodup hn₂, ?_, ?_⟩
    · intro q hq
      obtain ⟨hqm, hqv⟩ := mem_aerase.mp hq
      refine mem_aerase.mpr ⟨hfw q hqm, ?_⟩
      intro he
      have he' : q.2 = cid := he
      have hrev : (cid, q.1) ∈ vi.revMapping := by
        have := hfw q hqm
        rwa [he'] at this
      exact hqv (eq_of_mem_nodupKeys hn₂ hrev hmem)
    · intro q hq
      obtain ⟨hqm, hqc⟩ := mem_aerase.mp hq
      refine mem_aerase.mpr ⟨hbw q hqm, ?_⟩
      intro he
      have he' : q.2 = vid := he
      have hid : (vid, q.1) ∈ vi.idMapping := by
        have := hbw q hqm
        rwa [he'] at this
      exact hqc (eq_of_mem_nodupKeys hn₁ hid hmemI)

theorem removeByChunkId_inv (vi : VIState) (cid : Nat)
    (h : Inv vi) : Inv (removeByChunkId vi cid).1 := by
  obtain ⟨hMI, hTA, hB⟩ := h
  refine ⟨removeByChunkId_mutualInverse vi cid hMI, ?_⟩
  obtain ⟨hn₁, hn₂, hfw, hbw⟩ := hMI
  cases hl : alookup cid vi.revMapping with
  | none =>
    rw [removeByChunkId_eq_of_lookup_none hl]
    exact ⟨hTA, hB⟩
  | some vid =>
    rw [removeByChunkId_eq_of_lookup_some hl]
    have hmem : (cid, vid) ∈ vi.revMapping := mem_of_alookup_eq_some hl
    have hmemI : (vid, cid) ∈ vi.idMapping := hbw _ hmem
    constructor
    · intro t ht
      rcases List.mem_cons.mp ht with heq | ht'
      · constructor
        · intro hmm
          obtain ⟨q, hq, hq₁⟩ := List.mem_map.mp hmm
          exact (mem_aerase.mp hq).2 (hq₁.trans heq)
        · intro hmm
          obtain ⟨⟨c', v'⟩, hq, hq₁⟩ := List.mem_map.mp hmm
          have hq₁' : v' = vid := hq₁.trans heq
          obtain ⟨hqm, hqne⟩ := mem_aerase.mp hq
          have hid : (vid, c') ∈ vi.idMapping := by
            have := hbw _ hqm
            rwa [hq₁'] at this
          exact hqne (eq_of_mem_nodupKeys hn₁ hid hmemI)
      · obtain ⟨ht₁, ht₂⟩ := hTA t ht'
        constructor
        · intro hmm
          obtain ⟨q, hq, hq₁⟩ := List.mem_map.mp hmm
          exact ht₁ (hq₁ ▸ List.mem_map.mpr ⟨q, (mem_aerase.mp hq).1, rfl⟩)
        · intro hmm
          obtain ⟨q, hq, hq₁⟩ := List.mem_map.mp hmm
          exact ht₂ (hq₁ ▸ List.mem_map.mpr ⟨q, (mem_aerase.mp hq).1, rfl⟩)
    · constructor
      · intro v hv
        obtain ⟨q, hq, hq₁⟩ := List.mem_map.mp hv
        exact hB.1 _ (hq₁ ▸ List.mem_map.mpr ⟨q, (mem_aerase.mp hq).1, rfl⟩)
      · intro t ht
        rcases List.mem_cons.mp ht with rfl | ht'
        · exact hB.1 _ (List.mem_map.mpr ⟨_, hmemI, rfl⟩)
        · exact hB.2 _ ht'

end Codii.VectorStore

namespace Codii.VectorStore

theorem removeByChunkIds_fst (vi : VIState) (ids : List Nat) :
    (removeByChunkIds vi ids).1 =
      ids.foldl (fun s cid => (removeByChunkId s cid).1) vi := by
  suffices H : ∀ (l : List Nat) (v : VIState) (n : Nat),
      (l.foldl
        (fun acc cid =>
          let r := removeByChunkId acc.1 cid
          (r.1, acc.2 + (if r.2 then 1 else 0)))
        (v, n)).1 =
      l.foldl (fun s cid => (removeByChunkId s cid).1) v by
    exact H ids vi 0
  intro l
  induction l with
  | nil => intro v n; rfl
  | cons cid rest ih =>
    intro v n
    simp only [List.foldl_cons]
    exact ih _ _

/-- Each map can only lose entries and the tombstone set can only grow
across removal operations. -/
def Shrinks (vi vi' : VIState) : Prop :=
  vi'.idMapping.Sublist vi.idMapping ∧ vi'.revMapping.Sublist vi.revMapping ∧
  vi.tombstones.Sublist vi'.tombstones

theorem Shrinks.rfl (vi : VIState) : Shrinks vi vi :=
  ⟨List.Sublist.refl _, List.Sublist.refl _, List.Sublist.refl _⟩

theorem Shrinks.comp {a b c : VIState} (h₁ : Shrinks a b) (h₂ : Shrinks b c) :
    Shrinks a c :=
  ⟨h₂.1.trans h₁.1, h₂.2.1.trans h₁.2.1, h₁.2.2.trans h₂.2.2⟩

theorem removeByChunkId_shrinks (vi : VIState) (cid : Nat) :
    Shrinks vi (removeByChunkId vi cid).1 := by
  cases hl : alookup cid vi.revMapping with
  | none => rw [removeByChunkId_eq_of_lookup_none hl]; exact Shrinks.rfl vi
  | some vid =>
    rw [removeByChunkId_eq_of_lookup_some hl]
    exact ⟨aerase_sublist _ _, aerase_sublist _ _,
      List.sublist_cons_of_sublist _ (List.Sublist.refl _)⟩

theorem foldl_remove_shrinks (ids : List Nat) (vi : VIState) :
    Shrinks vi (ids.foldl (fun s cid => (removeByChunkId s cid).1) vi) := by
  induction ids generalizing vi with
  | nil => exact Shrinks.rfl vi
  | cons cid rest ih =>
    exact (removeByChunkId_shrinks vi cid).comp (ih _)

theorem foldl_remove_mutualInverse (ids : List Nat) (vi : VIState)
    (h : MutualInverse vi) :
    MutualInverse (ids.foldl (fun s cid => (removeByChunkId s cid).1) vi) := by
  induction ids generalizing vi with
  | nil => exact h
  | cons cid rest ih => exact ih _ (removeByChunkId_mutualInverse vi cid h)

/-- Chunk `cid`'s vector entry has been soft-deleted in `vi'` relative to
the pre-state `vi₀`: it is absent from both id maps of `vi'`, and the
vector id it had in `vi₀` (if any) carries a tombstone in `vi'`. -/
def Removed (vi₀ vi' : VIState) (cid : Nat) : Prop :=
  alookup cid vi'.revMapping = none ∧
  cid ∉ vi'.idMapping.map Prod.snd ∧
  ∀ vid, alookup cid vi₀.revMapping = some vid → vid ∈ vi'.tombstones

theorem Removed.mono {vi₀ vi vi' : VIState} {cid : Nat}
    (h : Removed vi₀ vi cid) (hs : Shrinks vi vi') : Removed vi₀ vi' cid := by
  obtain ⟨h₁, h₂, h₃⟩ := h
  refine ⟨?_, ?_, ?_⟩
  · rw [alookup_eq_none]
    intro hmem
    exact (alookup_eq_none _ _).mp h₁ ((hs.2.1.map Prod.fst).subset hmem)
  · intro hmem
    exact h₂ ((hs.1.map Prod.snd).subset hmem)
  · intro vid hv
    exact hs.2.2.subset (h₃ vid hv)

theorem removeByChunkId_removes (vi : VIState) (cid : Nat)
    (hMI : MutualInverse vi) : Removed vi (removeByChunkId vi cid).1 cid := by
  obtain ⟨hn₁, hn₂, hfw, hbw⟩ := hMI
  cases hl : alookup cid vi.revMapping with
  | none =>
    rw [removeByChunkId_eq_of_lookup_none hl]
    refine ⟨hl, ?_, ?_⟩
    · intro hmem
      obtain ⟨⟨v', c'⟩, hq, hq₁⟩ := List.mem_map.mp hmem
      have hc : c' = cid := hq₁
      have : (c', v') ∈ vi.revMapping := hfw _ hq
      rw [alookup_eq_some_of_mem hn₂ (hc ▸ this)] at hl
      exact Option.noConfusion hl
    · intro vid hv
      rw [hl] at hv
      exact Option.noConfusion hv
  | some vid =>
    rw [removeByChunkId_eq_of_lookup_some hl]
    have hmem : (cid, vid) ∈ vi.revMapping := mem_of_alookup_eq_some hl
    refine ⟨alookup_aerase_self _ _, ?_, ?_⟩
    · intro hmm
      obtain ⟨⟨v', c'⟩, hq, hq₁⟩ := List.mem_map.mp hmm
      have hc : c' = cid := hq₁
      obtain ⟨hqm, hqne⟩ := mem_aerase.mp hq
      have hrev : (cid, v') ∈ vi.revMapping := hc ▸ hfw _ hqm
      exact hqne (eq_of_mem_nodupKeys hn₂ hrev hmem)
    · intro vid' hv
      rw [hl] at hv
      exact (Option.some.inj hv) ▸ List.mem_cons_self _ _

theorem removeByChunkId_lookup_other (vi : VIState) (c cid : Nat)
    (h : cid ≠ c) :
    alookup cid (removeByChunkId vi c).1.revMapping =
      alookup cid vi.revMapping := by
  cases hl : alookup c vi.revMapping with
  | none => rw [removeByChunkId_eq_of_lookup_none hl]
  | some vid =>
    rw [removeByChunkId_eq_of_lookup_some hl]
    exact alookup_aerase cid c _ h

theorem foldl_remove_lookup_other (ids : List Nat) (vi : VIState) (cid : Nat)
    (h : cid ∉ ids) :
    alookup cid
        (ids.foldl (fun s c => (removeByChunkId s c).1) vi).revMapping =
      alookup cid vi.revMapping := by
  induction ids generalizing vi with
  | nil => rfl
  | cons c rest ih =>
    simp only [List.mem_cons, not_or] at h
    rw [List.foldl_cons, ih _ h.2, removeByChunkId_lookup_other vi c cid h.1]

theorem foldl_remove_removes (ids : List Nat) (vi : VIState)
    (hMI : MutualInverse vi) :
    ∀ cid ∈ ids,
      Removed vi (ids.foldl (fun s c => (removeByChunkId s c).1) vi) cid := by
  induction ids generalizing vi with
  | nil => intro cid h; exact absurd h (List.not_mem_nil _)
  | cons c rest ih =>
    intro cid hcid
    rw [List.foldl_cons]
    by_cases hc : cid = c
    · subst hc
      exact (removeByChunkId_removes vi cid hMI).mono (foldl_remove_shrinks _ _)
    · have hrest : cid ∈ rest := by
        rcases List.mem_cons.mp hcid with h | h
        · exact absurd h hc
        · exact h
      have hr := ih _ (removeByChunkId_mutualInverse vi c hMI) cid hrest
      refine ⟨hr.1, hr.2.1, ?_⟩
      intro vid hv
      refine hr.2.2 vid ?_
      rw [removeByChunkId_lookup_other vi c cid hc, hv]

theorem removeByChunkIds_removes (vi : VIState) (ids : List Nat)
    (hMI : MutualInverse vi) :
    ∀ cid ∈ ids, Removed vi (removeByChunkIds vi ids).1 cid := by
  rw [removeByChunkIds_fst]
  exact foldl_remove_removes ids vi hMI

/-- The accumulator step of `removeByChunkIds`. -/
def rmStep (acc : VIState × Nat) (cid : Nat) : VIState × Nat :=
  let r := removeByChunkId acc.1 cid
  (r.1, acc.2 + (if r.2 then 1 else 0))

theorem removeByChunkIds_eq_foldl (vi : VIState) (ids : List Nat) :
    removeByChunkIds vi ids = ids.foldl rmStep (vi, 0) := rfl

theorem rmStep_eq (acc : VIState × Nat) (cid : Nat) :
    rmStep acc cid =
      ((removeByChunkId acc.1 cid).1,
        acc.2 + (if (removeByChunkId acc.1 cid).2 then 1 else 0)) := rfl

theorem removeByChunkIds_count (vi : VIState) (ids : List Nat)
    (h : ids.Nodup) :
    (removeByChunkIds vi ids).2 =
      (ids.filter (fun cid => (alookup cid vi.revMapping).isSome)).length := by
  rw [removeByChunkIds_eq_foldl]
  suffices H : ∀ (l : List Nat) (v : VIState) (n : Nat), l.Nodup →
      (l.foldl rmStep (v, n)).2 =
      n + (l.filter (fun cid => (alookup cid v.revMapping).isSome)).length by
    simpa using H ids vi 0 h
  intro l
  induction l with
  | nil => intro v n _; simp
  | cons c rest ih =>
    intro v n hn
    obtain ⟨hc, hrest⟩ := List.nodup_cons.mp hn
    rw [List.foldl_cons, rmStep_eq]
    cases hl : alookup c v.revMapping with
    | none =>
      have hstep : removeByChunkId v c = (v, false) :=
        removeByChunkId_eq_of_lookup_none hl
      rw [hstep]
      have hn0 : (((v, false).1 : VIState),
          n + (if ((v, false) : VIState × Bool).2 then 1 else 0)) = (v, n) := by
        simp
      rw [hn0, ih v n hrest, List.filter_cons]
      simp [hl]
    | some vid =>
      have hstep := removeByChunkId_eq_of_lookup_some hl
      set v' : VIState :=
        { idMapping := aerase vid v.idMapping
          revMapping := aerase c v.revMapping
          tombstones := vid :: v.tombstones
          nextId := v.nextId } with hv'
      have hred : (((removeByChunkId v c).1 : VIState),
          n + (if (removeByChunkId v c).2 then 1 else 0)) = (v', n + 1) := by
        rw [hstep]
        simp
      rw [hred, ih v' (n + 1) hrest, List.filter_cons]
      have hfeq : rest.filter
          (fun cid => (alookup cid v'.revMapping).isSome) =
          rest.filter (fun cid => (alookup cid v.revMapping).isSome) := by
        apply List.filter_congr
        intro cid hcid
        have : alookup cid v'.revMapping = alookup cid v.revMapping := by
          rw [hv']
          exact alookup_aerase cid c _ (fun he => hc (he ▸ hcid))
        rw [this]
      rw [hfeq]
      simp [hl]
      omega

end Codii.VectorStore

namespace Codii.VectorStore

theorem foldl_remove_inv (ids : List Nat) (vi : VIState) (h : Inv vi) :
    Inv (ids.foldl (fun s cid => (removeByChunkId s cid).1) vi) := by
  induction ids generalizing vi with
  | nil => exact h
  | cons cid rest ih => exact ih _ (removeByChunkId_inv vi cid h)

theorem removeByChunkIds_inv (vi : VIState) (ids : List Nat) (h : Inv vi) :
    Inv (removeByChunkIds vi ids).1 := by
  rw [removeByChunkIds_fst]
  exact foldl_remove_inv ids vi h

theorem applyOp_inv (vi : VIState) (op : VOp) (h : Inv vi)
    (hok : match op with | .add ids => FreshAdd vi ids | _ => True) :
    Inv (applyOp vi op) := by
  cases op with
  | add ids => exact addVectors_inv vi ids h hok
  | removeOne cid => exact removeByChunkId_inv vi cid h
  | removeMany cids => exact removeByChunkIds_inv vi cids h

end Codii.VectorStore

/-- **C9 (counterexample).** The claim fails for the sequence
`add_vectors([5]); add_vectors([5])`: the second call maps chunk 5 to a
fresh vector id and overwrites the reverse entry, but the first forward
entry `(0, 5)` survives, so the maps are no longer mutual inverses; and
after a subsequent `remove_by_chunk_id(5)` the stale forward entry
`(0, 5)` is still present, so the removed chunk is not absent from both
maps. -/
theorem C9_counterexample_duplicate_add :
    ¬ Codii.VectorStore.MutualInverse
        (Codii.VectorStore.applyOps Codii.VectorStore.VIState.empty
          [Codii.VectorStore.VOp.add [5], Codii.VectorStore.VOp.add [5]]) ∧
    (0, 5) ∈ (Codii.VectorStore.applyOps Codii.VectorStore.VIState.empty
        [Codii.VectorStore.VOp.add [5], Codii.VectorStore.VOp.add [5],
         Codii.VectorStore.VOp.removeOne 5]).idMapping := by
  constructor
  · decide
  · decide

/-- **C9 (amended).** After any sequence of `add_vectors` and
vector-removal operations in which every `add_vectors` call passes
pairwise-distinct chunk ids not currently mapped (as the indexing
pipeline always does: it adds freshly assigned chunk ids), starting from
any state satisfying the invariant (in particular the empty store): the
forward and reverse maps are mutual inverses over live entries, and every
tombstoned vector entry is absent from both maps. -/
theorem C9_vector_store_invariant (vi : Codii.VectorStore.VIState)
    (ops : List Codii.VectorStore.VOp)
    (hInv : Codii.VectorStore.Inv vi)
    (hTrace : Codii.VectorStore.GoodTrace vi ops) :
    Codii.VectorStore.Inv (Codii.VectorStore.applyOps vi ops) := by
  induction ops generalizing vi with
  | nil => exact hInv
  | cons op rest ih =>
    obtain ⟨hok, htr⟩ := hTrace
    exact ih _ (Codii.VectorStore.applyOp_inv vi op hInv hok) htr

/-- Witness for C9 at a concrete trace: two adds of distinct fresh chunk
ids followed by a removal, starting from the empty store. -/
theorem C9_vector_store_invariant_witness :
    (Codii.VectorStore.Inv Codii.VectorStore.VIState.empty ∧
      Codii.VectorStore.GoodTrace Codii.VectorStore.VIState.empty
        [Codii.VectorStore.VOp.add [7, 8],
         Codii.VectorStore.VOp.removeOne 7,
         Codii.VectorStore.VOp.add [9]]) ∧
    Codii.VectorStore.Inv
      (Codii.VectorStore.applyOps Codii.VectorStore.VIState.empty
        [Codii.VectorStore.VOp.add [7, 8],
         Codii.VectorStore.VOp.removeOne 7,
         Codii.VectorStore.VOp.add [9]]) :=
  ⟨⟨by decide, by decide⟩,
    C9_vector_store_invariant Codii.VectorStore.VIState.empty _
      (by decide) (by decide)⟩

namespace Codii

/-! ## Indexing pipeline, deleting stage
(`src/codii/tools/index_codebase.py`, lines 289-306) -/

namespace Pipeline

/-- The deleting stage (10 → 20 %) of `IndexCodebaseTool._index_codebase`:
for each file in `files_to_delete = removed | modified`, fetch its chunk
ids from the chunk store, soft-delete the corresponding vectors when the
id list is non-empty, then delete the chunk rows. -/
def deletingStage (db : ChunkStore.DBState) (vi : VectorStore.VIState)
    (filesToDelete : List String) :
    ChunkStore.DBState × VectorStore.VIState :=
  filesToDelete.foldl
    (fun st f =>
      let chunkIds := ChunkStore.getChunkIdsByPath st.1 f
      let vi' := if chunkIds ≠ [] then (VectorStore.removeByChunkIds st.2 chunkIds).1
                 else st.2
      ((ChunkStore.deleteChunksByPath st.1 f).1, vi'))
    (db, vi)

/-- One iteration of the deleting loop, with the (semantically redundant)
`if chunk_ids:` guard eliminated: `remove_by_chunk_ids` on the empty list
is the identity. -/
def delStep (st : ChunkStore.DBState × VectorStore.VIState) (f : String) :
    ChunkStore.DBState × VectorStore.VIState :=
  ((ChunkStore.deleteChunksByPath st.1 f).1,
    (VectorStore.removeByChunkIds st.2 (ChunkStore.getChunkIdsByPath st.1 f)).1)

theorem deletingStage_eq (db : ChunkStore.DBState) (vi : VectorStore.VIState)
    (files : List String) :
    deletingStage db vi files = files.foldl delStep (db, vi) := by
  unfold deletingStage delStep
  congr 1
  funext st f
  cases hids : ChunkStore.getChunkIdsByPath st.1 f with
  | nil => simp [hids, VectorStore.removeByChunkIds]
  | cons c rest => simp [hids]

theorem mem_getChunkIdsByPath {db : ChunkStore.DBState} {f : String} {cid : Nat} :
    cid ∈ ChunkStore.getChunkIdsByPath db f ↔
      ∃ ch, (cid, ch) ∈ db.committed ∧ ch.path = f := by
  simp only [ChunkStore.getChunkIdsByPath, List.mem_map, List.mem_filter,
    decide_eq_true_eq]
  constructor
  · rintro ⟨⟨i, ch⟩, ⟨hm, hp⟩, rfl⟩
    exact ⟨ch, hm, hp⟩
  · rintro ⟨ch, hm, hp⟩
    exact ⟨(cid, ch), ⟨hm, hp⟩, rfl⟩

theorem getChunkIdsByPath_eq_nil {db : ChunkStore.DBState} {f : String}
    (h : ∀ r ∈ db.committed, (r : Nat × ChunkStore.ChunkRow).2.path ≠ f) :
    ChunkStore.getChunkIdsByPath db f = [] := by
  rcases hids : ChunkStore.getChunkIdsByPath db f with - | ⟨c, rest⟩
  · rfl
  · have : c ∈ ChunkStore.getChunkIdsByPath db f := by rw [hids]; exact List.mem_cons_self _ _
    obtain ⟨ch, hm, hp⟩ := mem_getChunkIdsByPath.mp this
    exact absurd hp (h _ hm)

theorem deleteChunksByPath_mem {db : ChunkStore.DBState} {f : String}
    {r : Nat × ChunkStore.ChunkRow}
    (h : r ∈ (ChunkStore.deleteChunksByPath db f).1.committed) :
    r ∈ db.committed ∧ r.2.path ≠ f := by
  simpa [ChunkStore.deleteChunksByPath, List.mem_filter] using h

theorem deleteChunksByPath_mem_of {db : ChunkStore.DBState} {f : String}
    {r : Nat × ChunkStore.ChunkRow}
    (h : r ∈ db.committed) (hne : r.2.path ≠ f) :
    r ∈ (ChunkStore.deleteChunksByPath db f).1.committed := by
  simp [ChunkStore.deleteChunksByPath, List.mem_filter, h, hne]

theorem foldl_delStep_committed_subset (files : List String)
    (st : ChunkStore.DBState × VectorStore.VIState)
    {r : Nat × ChunkStore.ChunkRow}
    (h : r ∈ (files.foldl delStep st).1.committed) : r ∈ st.1.committed := by
  induction files generalizing st with
  | nil => exact h
  | cons f rest ih =>
    rw [List.foldl_cons] at h
    exact (deleteChunksByPath_mem (ih _ h)).1

theorem foldl_delStep_shrinks (files : List String)
    (st : ChunkStore.DBState × VectorStore.VIState) :
    VectorStore.Shrinks st.2 (files.foldl delStep st).2 := by
  induction files generalizing st with
  | nil => exact VectorStore.Shrinks.rfl _
  | cons f rest ih =>
    refine VectorStore.Shrinks.comp ?_ (ih (delStep st f))
    show VectorStore.Shrinks st.2
      (VectorStore.removeByChunkIds st.2 (ChunkStore.getChunkIdsByPath st.1 f)).1
    rw [VectorStore.removeByChunkIds_fst]
    exact VectorStore.foldl_remove_shrinks _ _

theorem deletingStage_spec (files : List String) (db : ChunkStore.DBState)
    (vi : VectorStore.VIState) (hMI : VectorStore.MutualInverse vi) :
    (∀ f ∈ files,
      ChunkStore.getChunkIdsByPath (files.foldl delStep (db, vi)).1 f = []) ∧
    (∀ f ∈ files, ∀ cid ∈ ChunkStore.getChunkIdsByPath db f,
      VectorStore.Removed vi (files.foldl delStep (db, vi)).2 cid) := by
  induction files generalizing db vi with
  | nil => exact ⟨fun f hf => absurd hf (List.not_mem_nil _),
      fun f hf => absurd hf (List.not_mem_nil _)⟩
  | cons f₀ rest ih =>
    set ids₀ := ChunkStore.getChunkIdsByPath db f₀ with hids₀
    have hstep : delStep (db, vi) f₀ =
        ((ChunkStore.deleteChunksByPath db f₀).1,
          (VectorStore.removeByChunkIds vi ids₀).1) := rfl
    have hMI₁ : VectorStore.MutualInverse
        (VectorStore.removeByChunkIds vi ids₀).1 := by
      rw [VectorStore.removeByChunkIds_fst]
      exact VectorStore.foldl_remove_mutualInverse _ _ hMI
    obtain ⟨ihA, ihB⟩ :=
      ih (ChunkStore.deleteChunksByPath db f₀).1
        (VectorStore.removeByChunkIds vi ids₀).1 hMI₁
    constructor
    · intro f hf
      rcases List.mem_cons.mp hf with rfl | hf'
      · rw [List.foldl_cons, hstep]
        apply getChunkIdsByPath_eq_nil
        intro r hr
        exact (deleteChunksByPath_mem
          (foldl_delStep_committed_subset rest _ hr)).2
      · rw [List.foldl_cons, hstep]
        exact ihA f hf'
    · intro f hf cid hcid
      rw [List.foldl_cons, hstep]
      by_cases hmem : cid ∈ ids₀
      · have hrem : VectorStore.Removed vi
            (VectorStore.removeByChunkIds vi ids₀).1 cid :=
          VectorStore.removeByChunkIds_removes vi ids₀ hMI cid hmem
        exact hrem.mono (foldl_delStep_shrinks rest _)
      · have hf' : f ∈ rest := by
          rcases List.mem_cons.mp hf with rfl | hf'
          · exact absurd hcid hmem
          · exact hf'
        obtain ⟨ch, hrm, hrp⟩ := mem_getChunkIdsByPath.mp hcid
        have hnotf₀ : ch.path ≠ f₀ := by
          intro he
          exact hmem (mem_getChunkIdsByPath.mpr ⟨ch, hrm, he⟩)
        have hcid₁ : cid ∈ ChunkStore.getChunkIdsByPath
            (ChunkStore.deleteChunksByPath db f₀).1 f :=
          mem_getChunkIdsByPath.mpr
            ⟨ch, deleteChunksByPath_mem_of hrm hnotf₀, hrp⟩
        have hr := ihB f hf' cid hcid₁
        refine ⟨hr.1, hr.2.1, ?_⟩
        intro vid hv
        refine hr.2.2 vid ?_
        rw [VectorStore.removeByChunkIds_fst,
          VectorStore.foldl_remove_lookup_other _ _ _ hmem, hv]

end Pipeline

end Codii

/-- **C1.** For every file in `removed ∪ modified`, the deleting stage
fetches the file's chunk ids and soft-deletes those vectors via
`remove_by_chunk_ids`, then deletes the chunk rows (the `if chunk_ids:`
guard is semantically redundant because the operation is the identity on
an empty id list): afterwards the file has no chunk rows left, each of
its chunk ids is absent from both vector-store id maps, and the vector id
it was mapped to carries a tombstone; moreover `remove_by_chunk_ids`
returns the count of entries actually removed (the number of listed chunk
ids that were mapped). -/
theorem C1_deleting_stage (db : Codii.ChunkStore.DBState)
    (vi : Codii.VectorStore.VIState) (files : List String)
    (hvi : Codii.VectorStore.MutualInverse vi) :
    (∀ f ∈ files,
      Codii.ChunkStore.getChunkIdsByPath
        (Codii.Pipeline.deletingStage db vi files).1 f = []) ∧
    (∀ f ∈ files, ∀ cid ∈ Codii.ChunkStore.getChunkIdsByPath db f,
      Codii.VectorStore.Removed vi
        (Codii.Pipeline.deletingStage db vi files).2 cid) ∧
    (∀ ids : List Nat, ids.Nodup →
      (Codii.VectorStore.removeByChunkIds vi ids).2 =
        (ids.filter
          (fun cid => (Codii.alookup cid vi.revMapping).isSome)).length) := by
  rw [Codii.Pipeline.deletingStage_eq]
  obtain ⟨hA, hB⟩ := Codii.Pipeline.deletingStage_spec files db vi hvi
  exact ⟨hA, hB, fun ids h => Codii.VectorStore.removeByChunkIds_count vi ids h⟩

/-- A small concrete chunk store: two chunks of `/r/a.py`, one of
`/r/b.py`. -/
def Codii.Pipeline.sampleDb : Codii.ChunkStore.DBState :=
  ⟨[(1, ⟨"def a: pass", "/r/a.py", 1, 1, "python", "function"⟩),
    (2, ⟨"def b: pass", "/r/a.py", 3, 3, "python", "function"⟩),
    (3, ⟨"def c: pass", "/r/b.py", 1, 1, "python", "function"⟩)], [], 4⟩

/-- The matching vector store: chunks 1, 2, 3 carry vectors 0, 1, 2. -/
def Codii.Pipeline.sampleVi : Codii.VectorStore.VIState :=
  ⟨[(0, 1), (1, 2), (2, 3)], [(1, 0), (2, 1), (3, 2)], [], 3⟩

/-- Witness for C1 at a concrete input: deleting `/r/a.py` from the
three-chunk store. -/
theorem C1_deleting_stage_witness :
    Codii.VectorStore.MutualInverse Codii.Pipeline.sampleVi ∧
    ((∀ f ∈ ["/r/a.py"],
      Codii.ChunkStore.getChunkIdsByPath
        (Codii.Pipeline.deletingStage Codii.Pipeline.sampleDb
          Codii.Pipeline.sampleVi ["/r/a.py"]).1 f = []) ∧
    (∀ f ∈ ["/r/a.py"], ∀ cid ∈
        Codii.ChunkStore.getChunkIdsByPath Codii.Pipeline.sampleDb f,
      Codii.VectorStore.Removed Codii.Pipeline.sampleVi
        (Codii.Pipeline.deletingStage Codii.Pipeline.sampleDb
          Codii.Pipeline.sampleVi ["/r/a.py"]).2 cid) ∧
    (∀ ids : List Nat, ids.Nodup →
      (Codii.VectorStore.removeByChunkIds Codii.Pipeline.sampleVi ids).2 =
        (ids.filter (fun cid =>
          (Codii.alookup cid Codii.Pipeline.sampleVi.revMapping).isSome)).length)) :=
  ⟨by decide,
    C1_deleting_stage Codii.Pipeline.sampleDb Codii.Pipeline.sampleVi
      ["/r/a.py"] (by decide)⟩

namespace Codii

/-! ## FTS preprocessing (`src/codii/storage/database.py`)

Python strings are modelled as `List Char`. -/

namespace FTS

/-- The characters the preprocessor strips, i.e. the regex class
`[*^"()\-|]` of `preprocess_fts_query`. -/
def ftsSpecial (c : Char) : Bool :=
  c = '*' || c = '^' || c = '"' || c = '(' || c = ')' || c = '-' || c = '|'

/-- ASCII whitespace as matched by Python's `str.split()` / `str.strip()`. -/
def pyWhitespace (c : Char) : Bool :=
  c = ' ' || c = '\t' || c = '\n' || c = '\r' || c = '\x0b' || c = '\x0c'

/-- Python `\w` (ASCII portion): alphanumeric or underscore. -/
def wordChar (c : Char) : Bool :=
  c.isAlphanum || c = '_'

/-- `not s or not s.strip()`: the string is empty or all-whitespace. -/
def isBlank (q : List Char) : Bool :=
  q.all pyWhitespace

/-- `s.strip()`: drop leading and trailing whitespace. -/
def pyStrip (l : List Char) : List Char :=
  ((l.dropWhile pyWhitespace).reverse.dropWhile pyWhitespace).reverse

/-- `s.split()` worker: accumulate the current word (reversed) and break
on whitespace, dropping empty pieces. -/
def pySplitAux (cur : List Char) : List Char → List (List Char)
  | [] => if cur = [] then [] else [cur.reverse]
  | c :: cs =>
      if pyWhitespace c then
        if cur = [] then pySplitAux [] cs
        else cur.reverse :: pySplitAux [] cs
      else pySplitAux (c :: cur) cs

/-- Python `s.split()` (no separator): whitespace runs, empties dropped. -/
def pySplit (q : List Char) : List (List Char) :=
  pySplitAux [] q

/-- `' OR '.join(tokens)` (also the single-token case). -/
def joinOr : List (List Char) → List Char
  | [] => []
  | [t] => t
  | t :: rest => t ++ (' ' :: 'O' :: 'R' :: ' ' :: joinOr rest)

/-- The apostrophe character. -/
def squote : Char := Char.ofNat 39

/-- `s.replace(squote, squote·squote)` as done by `search_bm25` before
binding the MATCH parameter. -/
def escapeSquote (l : List Char) : List Char :=
  l.flatMap (fun c => if c = squote then [squote, squote] else [c])

/-- `preprocess_fts_query(query)` with the defaults used by
`Database.search_bm25` (`use_or=True, add_wildcards=True`): blank queries
yield the empty string; FTS5 special characters are replaced by spaces;
the remainder is split on whitespace; each term is stripped, skipped if
empty, suffixed with `*` unless it already ends in one; terms are joined
with ` OR `. -/
def preprocessFtsQuery (q : List Char) : List Char :=
  if isBlank q then []
  else
    let cleaned := q.map (fun c => if ftsSpecial c then ' ' else c)
    let terms := pySplit cleaned
    if terms = [] then []
    else
      let processed := terms.filterMap (fun t =>
        let t := pyStrip t
        if t = [] then none
        else some (if t.getLast? = some '*' then t else t ++ ['*']))
      if processed = [] then []
      else joinOr processed

/-- The string that actually reaches `chunks_fts MATCH ?` in
`Database.search_bm25`. -/
def searchBm25MatchArg (q : List Char) : List Char :=
  escapeSquote (preprocessFtsQuery q)

/-- Modelled from the SQLite FTS5 query grammar: a character usable
inside an unquoted token ("bareword") is an ASCII alphanumeric, an
underscore, the substitute character U+001A, or any code point ≥ 0x80;
any other character inside an unquoted token is rejected by the query
parser with `fts5: syntax error`. -/
def ftsBareword (c : Char) : Bool :=
  c.isAlphanum || c = '_' || c = '\x1a' || 0x80 ≤ c.toNat

/-- Modelled from the FTS5 query lexer (`fts5ExprGetToken`): a bareword
equal to exactly-uppercase `AND`, `OR` or `NOT` is lexed as an operator
keyword, never as a term, so e.g. `MATCH 'OR*'` raises
`fts5: syntax error near "OR"`. -/
def ftsKeyword (w : List Char) : Bool :=
  w = "AND".data || w = "OR".data || w = "NOT".data

/-- A well-formed prefix token: a non-empty non-keyword bareword followed
by `*`. -/
def ftsPrefixToken (t : List Char) : Prop :=
  ∃ w, t = w ++ ['*'] ∧ w ≠ [] ∧ (∀ c ∈ w, ftsBareword c = true) ∧
    ftsKeyword w = false

/-- A well-formed match expression of the shape `search_bm25` emits: a
non-empty ` OR `-disjunction of prefix tokens.  (Per the FTS5 grammar an
empty pattern is itself a syntax error, so the empty string is not
well-formed; a keyword bareword such as `OR` in term position is likewise
a syntax error, which `ftsPrefixToken` accounts for.) -/
def ftsWellFormed (s : List Char) : Prop :=
  ∃ ts, s = joinOr ts ∧ ts ≠ [] ∧ ∀ t ∈ ts, ftsPrefixToken t

/-- The whitespace-separated terms of the operator-stripped query: the
list `preprocess_fts_query` builds its `processed` terms from. -/
def ftsTerms (q : List Char) : List (List Char) :=
  pySplit (q.map (fun c => if ftsSpecial c then ' ' else c))

theorem ftsWellFormed_chars {s : List Char} (h : ftsWellFormed s) :
    ∀ c ∈ s, ftsBareword c = true ∨ c = ' ' ∨ c = '*' ∨ c = 'O' ∨ c = 'R' := by
  obtain ⟨ts, rfl, -, hts⟩ := h
  induction ts with
  | nil => intro c hc; exact absurd hc (List.not_mem_nil _)
  | cons t rest ih =>
    intro c hc
    have htok : ftsPrefixToken t := hts t (List.mem_cons_self _ _)
    obtain ⟨w, rfl, -, hw, -⟩ := htok
    have hinw : c ∈ w ++ ['*'] → ftsBareword c = true ∨ c = ' ' ∨ c = '*' ∨
        c = 'O' ∨ c = 'R' := by
      intro hcw
      rcases List.mem_append.mp hcw with h | h
      · exact Or.inl (hw c h)
      · simp only [List.mem_singleton] at h
        exact Or.inr (Or.inr (Or.inl h))
    rcases rest with - | ⟨t₂, rest₂⟩
    · exact hinw hc
    · simp only [joinOr] at hc
      rcases List.mem_append.mp hc with h | h
      · exact hinw h
      rcases List.mem_cons.mp h with rfl | h
      · exact Or.inr (Or.inl rfl)
      rcases List.mem_cons.mp h with rfl | h
      · exact Or.inr (Or.inr (Or.inr (Or.inl rfl)))
      rcases List.mem_cons.mp h with rfl | h
      · exact Or.inr (Or.inr (Or.inr (Or.inr rfl)))
      rcases List.mem_cons.mp h with rfl | h
      · exact Or.inr (Or.inl rfl)
      · exact ih (fun t ht => hts t (List.mem_cons_of_mem _ ht)) c h

/-- The all-word-character query `OR` is preprocessed to the match string
`OR*` unchanged (no lowercasing happens anywhere on the path), and the
FTS5 lexer rejects `OR*` — `OR` is lexed as the operator keyword, so
`MATCH 'OR*'` raises `fts5: syntax error near "OR"`; the grammar model
refuses it accordingly. -/
theorem or_query_match_arg_rejected :
    searchBm25MatchArg "OR".data = "OR*".data ∧
    ¬ ftsWellFormed "OR*".data := by
  refine ⟨by decide, ?_⟩
  rintro ⟨ts, heq, hne, hts⟩
  rcases ts with - | ⟨t, rest⟩
  · exact hne rfl
  rcases rest with - | ⟨t₂, rest₂⟩
  · rw [joinOr] at heq
    obtain ⟨w, hteq, -, -, hkw⟩ := hts t (List.mem_cons_self _ _)
    have h3 : ('O' :: 'R' :: '*' :: ([] : List Char)) = w ++ ['*'] := by
      rw [show "OR*".data = ('O' :: 'R' :: '*' :: []) from rfl] at heq
      rw [heq, hteq]
    rcases w with - | ⟨a, w⟩
    · simp at h3
    rcases w with - | ⟨b, w⟩
    · simp at h3
    rcases w with - | ⟨c, w⟩
    · obtain ⟨ha, hb, -⟩ : 'O' = a ∧ 'R' = b ∧ True := by
        simpa using h3
      subst ha
      subst hb
      exact absurd hkw (by decide)
    · simp at h3
  · have hlen := congrArg List.length heq
    rw [show "OR*".data = ('O' :: 'R' :: '*' :: ([] : List Char)) from rfl,
      joinOr] at hlen
    simp only [List.length_append, List.length_cons, List.length_nil] at hlen
    · omega
    · exact List.cons_ne_nil _ _

end FTS

end Codii

namespace Codii.FTS

theorem pySplitAux_spec (l : List Char) (cur : List Char)
    (hcur : ∀ c ∈ cur, pyWhitespace c = false) :
    ∀ w ∈ pySplitAux cur l,
      w ≠ [] ∧ ∀ c ∈ w, (c ∈ cur ∨ c ∈ l) ∧ pyWhitespace c = false := by
  induction l generalizing cur with
  | nil =>
    intro w hw
    rw [pySplitAux] at hw
    by_cases hc : cur = []
    · rw [if_pos hc] at hw
      exact absurd hw (List.not_mem_nil _)
    · rw [if_neg hc] at hw
      simp only [List.mem_singleton] at hw
      subst hw
      refine ⟨fun he => hc (by simpa using congrArg List.reverse he), ?_⟩
      intro c hcw
      exact ⟨Or.inl (List.mem_reverse.mp hcw), hcur c (List.mem_reverse.mp hcw)⟩
  | cons a as ih =>
    intro w hw
    rw [pySplitAux] at hw
    by_cases hws : pyWhitespace a
    · rw [if_pos hws] at hw
      by_cases hc : cur = []
      · rw [if_pos hc] at hw
        obtain ⟨h₁, h₂⟩ := ih [] (by simp) w hw
        refine ⟨h₁, fun c hcw => ?_⟩
        obtain ⟨hor, hnws⟩ := h₂ c hcw
        rcases hor with h | h
        · exact absurd h (List.not_mem_nil _)
        · exact ⟨Or.inr (List.mem_cons_of_mem _ h), hnws⟩
      · rw [if_neg hc] at hw
        rcases List.mem_cons.mp hw with rfl | hw'
        · refine ⟨fun he => hc (by simpa using congrArg List.reverse he), ?_⟩
          intro c hcw
          exact ⟨Or.inl (List.mem_reverse.mp hcw), hcur c (List.mem_reverse.mp hcw)⟩
        · obtain ⟨h₁, h₂⟩ := ih [] (by simp) w hw'
          refine ⟨h₁, fun c hcw => ?_⟩
          obtain ⟨hor, hnws⟩ := h₂ c hcw
          rcases hor with h | h
          · exact absurd h (List.not_mem_nil _)
          · exact ⟨Or.inr (List.mem_cons_of_mem _ h), hnws⟩
    · rw [if_neg hws] at hw
      have hcur' : ∀ c ∈ a :: cur, pyWhitespace c = false := by
        intro c hc
        rcases List.mem_cons.mp hc with rfl | hc'
        · exact Bool.eq_false_iff.mpr hws
        · exact hcur c hc'
      obtain ⟨h₁, h₂⟩ := ih (a :: cur) hcur' w hw
      refine ⟨h₁, fun c hcw => ?_⟩
      obtain ⟨hor, hnws⟩ := h₂ c hcw
      rcases hor with h | h
      · rcases List.mem_cons.mp h with rfl | h'
        · exact ⟨Or.inr (List.mem_cons_self _ _), hnws⟩
        · exact ⟨Or.inl h', hnws⟩
      · exact ⟨Or.inr (List.mem_cons_of_mem _ h), hnws⟩

theorem pySplit_spec (l : List Char) :
    ∀ w ∈ pySplit l, w ≠ [] ∧ ∀ c ∈ w, c ∈ l ∧ pyWhitespace c = false := by
  intro w hw
  obtain ⟨h₁, h₂⟩ := pySplitAux_spec l [] (by simp) w hw
  refine ⟨h₁, fun c hc => ?_⟩
  obtain ⟨hor, hnws⟩ := h₂ c hc
  rcases hor with h | h
  · exact absurd h (List.not_mem_nil _)
  · exact ⟨h, hnws⟩

theorem pySplitAux_ne_nil_of_cur (l : List Char) (cur : List Char)
    (h : cur ≠ []) : pySplitAux cur l ≠ [] := by
  induction l generalizing cur with
  | nil => rw [pySplitAux, if_neg h]; simp
  | cons a as ih =>
    rw [pySplitAux]
    by_cases hws : pyWhitespace a
    · rw [if_pos hws, if_neg h]; simp
    · rw [if_neg hws]
      exact ih _ (by simp)

theorem pySplit_ne_nil (l : List Char) (h : ∃ c ∈ l, pyWhitespace c = false) :
    pySplit l ≠ [] := by
  rw [pySplit]
  obtain ⟨c₀, hc₀, hnws⟩ := h
  induction l with
  | nil => exact absurd hc₀ (List.not_mem_nil _)
  | cons a as ih =>
    rw [pySplitAux]
    by_cases hws : pyWhitespace a
    · rw [if_pos hws, if_pos rfl]
      have hc₀' : c₀ ∈ as := by
        rcases List.mem_cons.mp hc₀ with rfl | h
        · rw [hws] at hnws; exact absurd hnws (by simp)
        · exact h
      exact ih hc₀'
    · rw [if_neg hws]
      exact pySplitAux_ne_nil_of_cur as [a] (by simp)

theorem dropWhile_eq_self_of (p : Char → Bool) (l : List Char)
    (h : ∀ c ∈ l, p c = false) : l.dropWhile p = l := by
  cases l with
  | nil => rfl
  | cons a as =>
    rw [List.dropWhile_cons, if_neg]
    rw [h a (List.mem_cons_self _ _)]
    simp

theorem pyStrip_eq_self (l : List Char)
    (h : ∀ c ∈ l, pyWhitespace c = false) : pyStrip l = l := by
  rw [pyStrip, dropWhile_eq_self_of _ _ h,
    dropWhile_eq_self_of _ _ (fun c hc => h c (List.mem_reverse.mp hc)),
    List.reverse_reverse]

theorem mem_of_getLast? {l : List Char} {a : Char}
    (h : l.getLast? = some a) : a ∈ l := by
  induction l with
  | nil => exact absurd h (by simp)
  | cons c cs ih =>
    cases cs with
    | nil =>
      simp only [List.getLast?_singleton, Option.some.injEq] at h
      simp [h]
    | cons d ds =>
      rw [List.getLast?_cons_cons] at h
      exact List.mem_cons_of_mem _ (ih h)

theorem escapeSquote_eq_self (l : List Char) (h : ∀ c ∈ l, c ≠ squote) :
    escapeSquote l = l := by
  induction l with
  | nil => rfl
  | cons a as ih =>
    rw [escapeSquote, List.flatMap_cons, if_neg (h a (List.mem_cons_self _ _))]
    have := ih (fun c hc => h c (List.mem_cons_of_mem _ hc))
    rw [escapeSquote] at this
    rw [this]
    rfl

theorem wordChar_not_ws {c : Char} (h : wordChar c = true) :
    pyWhitespace c = false := by
  by_contra hc
  have hws : pyWhitespace c = true := by
    revert hc; cases pyWhitespace c <;> simp
  simp only [pyWhitespace, Bool.or_eq_true, decide_eq_true_eq] at hws
  rcases hws with (((((rfl | rfl) | rfl) | rfl) | rfl) | rfl) <;>
    exact absurd h (by decide)

theorem wordChar_not_special {c : Char} (h : wordChar c = true) :
    ftsSpecial c = false := by
  by_contra hc
  have hsp : ftsSpecial c = true := by
    revert hc; cases ftsSpecial c <;> simp
  simp only [ftsSpecial, Bool.or_eq_true, decide_eq_true_eq] at hsp
  rcases hsp with ((((((rfl | rfl) | rfl) | rfl) | rfl) | rfl) | rfl) <;>
    exact absurd h (by decide)

theorem wordChar_bareword {c : Char} (h : wordChar c = true) :
    ftsBareword c = true := by
  simp only [wordChar, Bool.or_eq_true] at h
  rcases h with h | h
  · simp [ftsBareword, h]
  · have : c = '_' := by simpa using h
    subst this
    decide

theorem wordChar_ne_star {c : Char} (h : wordChar c = true) : c ≠ '*' := by
  intro he
  subst he
  exact absurd h (by decide)

theorem filterMap_eq_map_of {α β : Type} (g : α → Option β) (f : α → β)
    (l : List α) (h : ∀ a ∈ l, g a = some (f a)) : l.filterMap g = l.map f := by
  induction l with
  | nil => rfl
  | cons a as ih =>
    rw [List.filterMap_cons, h a (List.mem_cons_self _ _), List.map_cons,
      ih (fun a ha => h a (List.mem_cons_of_mem _ ha))]

end Codii.FTS

/-- **C5 (amended).** `search_bm25` strips the FTS5 operator characters
`* ^ " ( ) - |` before matching, so for every query built from word
characters (alphanumerics and underscore), whitespace and those stripped
characters — with at least one word character, and no whitespace-separated
term of the operator-stripped query equal to an exact-uppercase FTS5
keyword `AND`, `OR` or `NOT` — the string bound to `chunks_fts MATCH ?`
is a well-formed non-empty OR-disjunction of prefix tokens and the FTS
layer raises no parser error.  (Punctuation outside that set survives
preprocessing and can produce an FTS5 syntax error, and so does a
standalone uppercase keyword, which survives as e.g. `OR*`; see the
counterexample and `or_query_match_arg_rejected`.) -/
theorem C5_fts_preprocess_no_parser_error (q : List Char)
    (hchars : ∀ c ∈ q, Codii.FTS.wordChar c = true ∨
      Codii.FTS.pyWhitespace c = true ∨ Codii.FTS.ftsSpecial c = true)
    (hword : ∃ c ∈ q, Codii.FTS.wordChar c = true)
    (hkw : ∀ w ∈ Codii.FTS.ftsTerms q, Codii.FTS.ftsKeyword w = false) :
    Codii.FTS.ftsWellFormed (Codii.FTS.searchBm25MatchArg q) := by
  open Codii.FTS in
  obtain ⟨c₀, hc₀, hw₀⟩ := hword
  have hblank : isBlank q = false := by
    by_contra hb
    have hb' : isBlank q = true := by revert hb; cases isBlank q <;> simp
    rw [isBlank, List.all_eq_true] at hb'
    have := hb' c₀ hc₀
    rw [wordChar_not_ws hw₀] at this
    exact absurd this (by simp)
  have hcleaned : ∀ c ∈ q.map (fun c => if ftsSpecial c then ' ' else c),
      wordChar c = true ∨ pyWhitespace c = true := by
    intro c hc
    obtain ⟨c', hc', rfl⟩ := List.mem_map.mp hc
    by_cases hsp : ftsSpecial c'
    · rw [if_pos hsp]
      exact Or.inr (by decide)
    · rw [if_neg hsp]
      rcases hchars c' hc' with h | h | h
      · exact Or.inl h
      · exact Or.inr h
      · exact absurd h hsp
  have hmem₀ : c₀ ∈ q.map (fun c => if ftsSpecial c then ' ' else c) :=
    List.mem_map.mpr ⟨c₀, hc₀, by simp [wordChar_not_special hw₀]⟩
  have hterms_ne :
      pySplit (q.map (fun c => if ftsSpecial c then ' ' else c)) ≠ [] :=
    pySplit_ne_nil _ ⟨c₀, hmem₀, wordChar_not_ws hw₀⟩
  have htermchars :
      ∀ w ∈ pySplit (q.map (fun c => if ftsSpecial c then ' ' else c)),
        w ≠ [] ∧ ∀ c ∈ w, wordChar c = true := by
    intro w hw
    obtain ⟨h₁, h₂⟩ := pySplit_spec _ w hw
    refine ⟨h₁, fun c hc => ?_⟩
    obtain ⟨hcin, hnws⟩ := h₂ c hc
    rcases hcleaned c hcin with h | h
    · exact h
    · rw [h] at hnws
      exact absurd hnws (by simp)
  have hproc :
      (pySplit (q.map (fun c => if ftsSpecial c then ' ' else c))).filterMap
        (fun t =>
          let t := pyStrip t
          if t = [] then none
          else some (if t.getLast? = some '*' then t else t ++ ['*'])) =
      (pySplit (q.map (fun c => if ftsSpecial c then ' ' else c))).map
        (fun t => t ++ ['*']) := by
    apply filterMap_eq_map_of
    intro w hw
    obtain ⟨hne, hwc⟩ := htermchars w hw
    have hnws : ∀ c ∈ w, pyWhitespace c = false :=
      fun c hc => wordChar_not_ws (hwc c hc)
    have hst : pyStrip w = w := pyStrip_eq_self w hnws
    have hstar : w.getLast? ≠ some '*' := by
      intro hl
      exact wordChar_ne_star (hwc _ (mem_of_getLast? hl)) rfl
    simp only [hst]
    rw [if_neg hne, if_neg hstar]
  have hmapne :
      (pySplit (q.map (fun c => if ftsSpecial c then ' ' else c))).map
        (fun t => t ++ ['*']) ≠ [] := by
    intro h
    exact hterms_ne (List.map_eq_nil_iff.mp h)
  have heq : preprocessFtsQuery q =
      joinOr ((pySplit (q.map (fun c => if ftsSpecial c then ' ' else c))).map
        (fun t => t ++ ['*'])) := by
    simp only [preprocessFtsQuery]
    rw [if_neg (by rw [hblank]; simp), if_neg hterms_ne, hproc,
      if_neg hmapne]
  have hwf : ftsWellFormed
      (joinOr ((pySplit (q.map (fun c => if ftsSpecial c then ' ' else c))).map
        (fun t => t ++ ['*']))) := by
    refine ⟨_, rfl, hmapne, ?_⟩
    intro t ht
    obtain ⟨w, hw, rfl⟩ := List.mem_map.mp ht
    exact ⟨w, rfl, (htermchars w hw).1,
      fun c hc => wordChar_bareword ((htermchars w hw).2 c hc), hkw w hw⟩
  have hnosq : ∀ c ∈
      joinOr ((pySplit (q.map (fun c => if ftsSpecial c then ' ' else c))).map
        (fun t => t ++ ['*'])), c ≠ squote := by
    intro c hc he
    subst he
    rcases ftsWellFormed_chars hwf _ hc with h | h | h | h | h <;>
      exact absurd h (by decide)
  rw [Codii.FTS.searchBm25MatchArg, heq, escapeSquote_eq_self _ hnosq]
  exact hwf

/-- Witness for C5 at the concrete query `page table walk`. -/
theorem C5_fts_preprocess_no_parser_error_witness :
    ((∀ c ∈ "page table walk".data, Codii.FTS.wordChar c = true ∨
        Codii.FTS.pyWhitespace c = true ∨ Codii.FTS.ftsSpecial c = true) ∧
      (∃ c ∈ "page table walk".data, Codii.FTS.wordChar c = true) ∧
      (∀ w ∈ Codii.FTS.ftsTerms "page table walk".data,
        Codii.FTS.ftsKeyword w = false)) ∧
    Codii.FTS.ftsWellFormed
      (Codii.FTS.searchBm25MatchArg "page table walk".data) :=
  ⟨⟨by decide, by decide, by decide⟩,
    C5_fts_preprocess_no_parser_error "page table walk".data
      (by decide) (by decide) (by decide)⟩

/-- **C5 (counterexample).** The claim "for every input query ... any term
that would be malformed at the FTS layer is stripped or escaped" is
false: the query `foo.bar` is preprocessed to the match string `foo.bar*`
unchanged — `.` is neither stripped nor escaped — and `.` cannot occur in
an unquoted FTS5 token, so `MATCH 'foo.bar*'` raises
`fts5: syntax error near "."`. -/
theorem C5_counterexample_dot_survives :
    Codii.FTS.searchBm25MatchArg "foo.bar".data = "foo.bar*".data ∧
    ¬ Codii.FTS.ftsWellFormed "foo.bar*".data := by
  constructor
  · decide
  · intro h
    have hdot : '.' ∈ "foo.bar*".data := by decide
    rcases Codii.FTS.ftsWellFormed_chars h '.' hdot with h' | h' | h' | h' | h' <;>
      exact absurd h' (by decide)

namespace Codii

/-! ## Query processor (`src/codii/indexers/query_processor.py`) -/

namespace QueryProc

open FTS

/-- `' '.join(tokens)`. -/
def joinSpace : List (List Char) → List Char
  | [] => []
  | [t] => t
  | t :: rest => t ++ ' ' :: joinSpace rest

/-- `QueryProcessor._clean_query`: strip FTS5 special characters, then any
other non-word non-whitespace character, then normalise whitespace
(`' '.join(cleaned.split())`).  Python's `\w` is modelled over ASCII. -/
def cleanQuery (q : List Char) : List Char :=
  let c1 := q.map (fun c => if ftsSpecial c then ' ' else c)
  let c2 := c1.map (fun c => if !(wordChar c || pyWhitespace c) then ' ' else c)
  joinSpace (pySplit c2)

/-- `s.lower()` (ASCII). -/
def pyLower (l : List Char) : List Char := l.map Char.toLower

/-- `s.isupper()`: at least one cased character and every cased character
uppercase (ASCII: cased = alphabetic). -/
def pyIsUpper (l : List Char) : Bool :=
  l.any (fun c => c.isAlpha) && l.all (fun c => !c.isAlpha || c.isUpper)

/-- The regex `re.sub(r'(?<!^)(?=[A-Z])', ' ', text)` on the tail of the
string: insert a space before every uppercase letter. -/
def camelSpacesTail : List Char → List Char
  | [] => []
  | c :: rest =>
      if c.isUpper then ' ' :: c :: camelSpacesTail rest
      else c :: camelSpacesTail rest

/-- `re.sub(r'(?<!^)(?=[A-Z])', ' ', text)`: the first character is never
preceded by a space. -/
def insertCamelSpaces : List Char → List Char
  | [] => []
  | c :: rest => c :: camelSpacesTail rest

/-- `split_camel_case`. -/
def splitCamelCase (text : List Char) : List (List Char) :=
  if pyIsUpper text then [pyLower text]
  else ((pySplit (insertCamelSpaces text)).filter (fun t => t ≠ [])).map pyLower

/-- `s.split(sep)` for a single-character separator: keeps empty pieces. -/
def splitOnCharAux (sep : Char) (cur : List Char) : List Char → List (List Char)
  | [] => [cur.reverse]
  | c :: cs =>
      if c = sep then cur.reverse :: splitOnCharAux sep [] cs
      else splitOnCharAux sep (c :: cur) cs

def pySplitOnChar (sep : Char) (l : List Char) : List (List Char) :=
  splitOnCharAux sep [] l

/-- `split_snake_case`. -/
def splitSnakeCase (text : List Char) : List (List Char) :=
  ((pySplitOnChar '_' text).filter (fun t => t ≠ [])).map pyLower

/-- `tokenize_identifier`: snake_case first, then camelCase/PascalCase
(an uppercase letter after the first position), else the lowercased term
alone. -/
def tokenizeIdentifier (ident : List Char) : List (List Char) :=
  if '_' ∈ ident then splitSnakeCase ident
  else if ident.length > 1 && (ident.drop 1).any (fun c => c.isUpper) then
    splitCamelCase ident
  else [pyLower ident]

/-- `QueryProcessor.ABBREVIATIONS`, transcribed in declaration order. -/
def abbreviations : List (String × List String) :=
  [("alloc", ["allocate", "allocation", "allocator"]),
   ("kalloc", ["kernel_allocate", "kernel_allocation"]),
   ("kfree", ["kernel_free", "free"]),
   ("mem", ["memory"]),
   ("ptr", ["pointer"]),
   ("fn", ["function"]),
   ("func", ["function"]),
   ("proc", ["process", "procedure"]),
   ("buf", ["buffer"]),
   ("cfg", ["config", "configuration"]),
   ("ctx", ["context"]),
   ("init", ["initialize", "initialization"]),
   ("sync", ["synchronize", "synchronization"]),
   ("async", ["asynchronous"]),
   ("impl", ["implementation", "implement"]),
   ("msg", ["message"]),
   ("err", ["error"]),
   ("val", ["value"]),
   ("idx", ["index"]),
   ("len", ["length"]),
   ("num", ["number"]),
   ("str", ["string"]),
   ("char", ["character"]),
   ("tmp", ["temporary"]),
   ("temp", ["temporary"]),
   ("info", ["information"]),
   ("desc", ["description", "descriptor"]),
   ("def", ["definition", "default"]),
   ("ref", ["reference"]),
   ("src", ["source"]),
   ("dst", ["destination"]),
   ("prev", ["previous"]),
   ("cur", ["current"]),
   ("max", ["maximum"]),
   ("min", ["minimum"]),
   ("avg", ["average"]),
   ("dev", ["device", "development"]),
   ("env", ["environment"]),
   ("arg", ["argument"]),
   ("param", ["parameter"]),
   ("ret", ["return"]),
   ("res", ["result", "response", "resource"]),
   ("req", ["request", "requirement"]),
   ("resp", ["response"]),
   ("ack", ["acknowledge"]),
   ("nack", ["not_acknowledge"]),
   ("irq", ["interrupt", "interrupt_request"]),
   ("pid", ["process_id", "process_identifier"]),
   ("tid", ["thread_id", "thread_identifier"]),
   ("fd", ["file_descriptor"]),
   ("io", ["input_output"]),
   ("cpu", ["processor", "central_processing_unit"]),
   ("gpu", ["graphics_processing_unit"]),
   ("ram", ["random_access_memory", "memory"]),
   ("rom", ["read_only_memory"]),
   ("tlb", ["translation_lookaside_buffer"]),
   ("mmu", ["memory_management_unit"]),
   ("pfn", ["page_frame_number"]),
   ("va", ["virtual_address"]),
   ("pa", ["physical_address"])]

/-- `QueryProcessor._expand_abbreviation`. -/
def expandAbbreviation (term : List Char) : List (List Char) :=
  ((alookup (String.mk (pyLower term)) abbreviations).getD []).map String.data

/-- `list(dict.fromkeys(expanded_terms))`: deduplicate preserving the
first occurrence's position. -/
def dedupKeepFirst (l : List (List Char)) : List (List Char) :=
  l.foldl (fun acc t => if t ∈ acc then acc else acc ++ [t]) []

/-- `QueryProcessor._build_fts_query`: wildcard each term and join with
` OR `. -/
def buildFtsQuery (terms : List (List Char)) : List Char :=
  if terms = [] then []
  else joinOr (terms.map (fun t => t ++ ['*']))

/-- `min_term_length` default. -/
def minTermLength : Nat := 2

/-- `ProcessedQuery`. -/
structure ProcessedQuery where
  original : List Char
  terms : List (List Char)
  expandedTerms : List (List Char)
  ftsQuery : List Char
deriving DecidableEq, Repr

/-- `QueryProcessor.process` with the default configuration
(`use_expansion=True, use_code_tokenization=True, min_term_length=2`):
empty or whitespace-only queries short-circuit with `fts_query=query`;
otherwise the cleaned query is split, each term is lowercased and
dropped if shorter than `min_term_length`, identifier tokenisations (when
they split the term) and abbreviation expansions are appended, the
expanded list is deduplicated, and the FTS expression is built. -/
def process (query : List Char) : ProcessedQuery :=
  if isBlank query then
    ⟨query, [], [], query⟩
  else
    let rawTerms := pySplit (cleanQuery query)
    let acc := rawTerms.foldl
      (fun acc term =>
        let termLower := pyStrip (pyLower term)
        if termLower.length < minTermLength then acc
        else
          let e₁ := acc.2 ++ [termLower]
          let tokenized := tokenizeIdentifier term
          let e₂ := if tokenized.length > 1 then e₁ ++ tokenized else e₁
          let e₃ := e₂ ++ expandAbbreviation termLower
          (acc.1 ++ [termLower], e₃))
      ([], [])
    let expandedTerms := dedupKeepFirst acc.2
    ⟨query, acc.1, expandedTerms, buildFtsQuery expandedTerms⟩

theorem buildFtsQuery_eq (terms : List (List Char)) :
    buildFtsQuery terms = joinOr (terms.map (fun t => t ++ ['*'])) := by
  cases terms with
  | nil => rfl
  | cons t rest => rw [buildFtsQuery, if_neg (by simp)]

theorem dedupKeepFirst_nodup (l : List (List Char)) :
    (dedupKeepFirst l).Nodup := by
  rw [dedupKeepFirst]
  suffices H : ∀ (acc : List (List Char)), acc.Nodup →
      (l.foldl (fun acc t => if t ∈ acc then acc else acc ++ [t]) acc).Nodup by
    exact H [] List.nodup_nil
  induction l with
  | nil => intro acc h; exact h
  | cons t rest ih =>
    intro acc h
    rw [List.foldl_cons]
    by_cases hm : t ∈ acc
    · rw [if_pos hm]; exact ih acc h
    · rw [if_neg hm]
      refine ih _ ?_
      rw [List.nodup_append]
      exact ⟨h, List.nodup_singleton t, by simpa using hm⟩

end QueryProc

end Codii

/-- **C7 (amended).** For every query that is not empty or whitespace-only,
`QueryProcessor.process` builds `fts_query` as the deduplicated expanded
terms (duplicate-free, first occurrences kept) each suffixed with `*` and
joined with " OR "; in particular `"page table walk"` yields
`"page* OR table* OR walk*"`, and the empty query yields the empty FTS
expression.  (A whitespace-only query short-circuits and returns the
query itself — whitespace, not empty — as `fts_query`; see the
counterexample.) -/
theorem C7_query_processor_fts (q : List Char)
    (h : Codii.FTS.isBlank q = false) :
    ((Codii.QueryProc.process q).ftsQuery =
      Codii.FTS.joinOr
        ((Codii.QueryProc.process q).expandedTerms.map (fun t => t ++ ['*'])) ∧
     (Codii.QueryProc.process q).expandedTerms.Nodup) ∧
    (Codii.QueryProc.process "page table walk".data).ftsQuery =
      "page* OR table* OR walk*".data ∧
    (Codii.QueryProc.process "".data).ftsQuery = "".data := by
  refine ⟨⟨?_, ?_⟩, ?_, ?_⟩
  · simp only [Codii.QueryProc.process]
    rw [if_neg (by rw [h]; simp)]
    exact Codii.QueryProc.buildFtsQuery_eq _
  · simp only [Codii.QueryProc.process]
    rw [if_neg (by rw [h]; simp)]
    exact Codii.QueryProc.dedupKeepFirst_nodup _
  · decide
  · decide

/-- Witness for C7 at the concrete camel-case query `pageTableWalk`. -/
theorem C7_query_processor_fts_witness :
    Codii.FTS.isBlank "pageTableWalk".data = false ∧
    (((Codii.QueryProc.process "pageTableWalk".data).ftsQuery =
      Codii.FTS.joinOr
        ((Codii.QueryProc.process "pageTableWalk".data).expandedTerms.map
          (fun t => t ++ ['*'])) ∧
     (Codii.QueryProc.process "pageTableWalk".data).expandedTerms.Nodup) ∧
    (Codii.QueryProc.process "page table walk".data).ftsQuery =
      "page* OR table* OR walk*".data ∧
    (Codii.QueryProc.process "".data).ftsQuery = "".data) :=
  ⟨by decide, C7_query_processor_fts "pageTableWalk".data (by decide)⟩

/-- **C7 (counterexample).** The claim "for every empty or whitespace-only
query it returns an empty FTS expression" is false for whitespace-only
queries: `process("   ")` short-circuits and returns the original
three-space string as `fts_query`, which is not empty. -/
theorem C7_counterexample_whitespace_query :
    (Codii.QueryProc.process "   ".data).ftsQuery = "   ".data ∧
    "   ".data ≠ ([] : List Char) := by
  exact ⟨by decide, by decide⟩

namespace Codii

/-! ## Chunkers (`src/codii/chunkers/text_chunker.py`,
`src/codii/chunkers/ast_chunker.py`) -/

namespace Chunkers

open FTS QueryProc

/-- `CodeChunk` (file content modelled as `List Char`). -/
structure CodeChunk where
  content : List Char
  path : String
  startLine : Nat
  endLine : Nat
  language : String
  chunkType : String
  name : Option String := none
deriving DecidableEq, Repr

/-- `content.split("\n")` (keeps empty pieces; `""` gives `[""]`). -/
def splitLines (l : List Char) : List (List Char) :=
  pySplitOnChar '\n' l

/-- `"\n".join(lines)`. -/
def joinNl : List (List Char) → List Char
  | [] => []
  | [l] => l
  | l :: rest => l ++ '\n' :: joinNl rest

/-- `TextChunker` configuration. -/
structure TextChunkerCfg where
  maxChunkSize : Nat := 1500
  minChunkSize : Nat := 100
  chunkOverlap : Nat := 200
deriving DecidableEq, Repr

/-- The `for line in reversed(lines)` collection loop of
`_get_overlap_lines` (operating on the already-reversed list; the caller
re-reverses, matching `overlap_lines.insert(0, line)`). -/
def getOverlapLinesAux (chunkOverlap : Nat) (size : Nat) :
    List (List Char) → List (List Char)
  | [] => []
  | line :: rest =>
      if chunkOverlap < size + line.length then []
      else line :: getOverlapLinesAux chunkOverlap (size + line.length + 1) rest

/-- `TextChunker._get_overlap_lines`. -/
def getOverlapLines (chunkOverlap : Nat) (lines : List (List Char)) :
    List (List Char) :=
  if lines = [] then []
  else (getOverlapLinesAux chunkOverlap 0 lines.reverse).reverse

/-- Loop state of `TextChunker.chunk_file`. -/
structure TCState where
  chunks : List CodeChunk
  curLines : List (List Char)
  curStart : Nat
  curSize : Nat
deriving Repr

/-- One iteration of the `for i, line in enumerate(lines, start=1)` loop. -/
def textStep (cfg : TextChunkerCfg) (path language : String)
    (st : TCState) (il : Nat × List Char) : TCState :=
  let i := il.1
  let line := il.2
  let lineSize := line.length + 1
  let st' :=
    if cfg.maxChunkSize < st.curSize + lineSize ∧ st.curLines ≠ [] then
      let chunkContent := joinNl st.curLines
      let chunks :=
        if cfg.minChunkSize ≤ chunkContent.length then
          st.chunks ++
            [⟨chunkContent, path, st.curStart, i - 1, language, "text_block", none⟩]
        else st.chunks
      let overlap := getOverlapLines cfg.chunkOverlap st.curLines
      (⟨chunks, overlap, i - overlap.length,
        (overlap.map (fun l => l.length + 1)).sum⟩ : TCState)
    else st
  ⟨st'.chunks, st'.curLines ++ [line], st'.curStart, st'.curSize + lineSize⟩

/-- The line loop of `TextChunker.chunk_file` plus the final-chunk flush;
returns the chunk list before the module-chunk fallback. -/
def textChunkCore (cfg : TextChunkerCfg) (content : List Char)
    (path language : String) : List CodeChunk :=
  let lines := splitLines content
  let st := (lines.enumFrom 1).foldl (textStep cfg path language) ⟨[], [], 1, 0⟩
  if st.curLines ≠ [] then
    let chunkContent := joinNl st.curLines
    if cfg.minChunkSize ≤ chunkContent.length then
      st.chunks ++
        [⟨chunkContent, path, st.curStart, lines.length, language,
          "text_block", none⟩]
    else st.chunks
  else st.chunks

/-- `TextChunker.chunk_file`: early return on blank content; line-window
chunking; if nothing met the floor but content is non-blank, one `module`
chunk covering the whole file. -/
def textChunkFile (cfg : TextChunkerCfg) (content : List Char)
    (path language : String) : List CodeChunk :=
  if isBlank content then []
  else
    let chunks := textChunkCore cfg content path language
    if chunks = [] ∧ isBlank content = false then
      [⟨content, path, 1, (splitLines content).length, language, "module", none⟩]
    else chunks

/-- A parse tree as handed back by the (external) tree-sitter parser:
node type, `start_point`/`end_point` (row, column), byte span, children. -/
inductive TSNode where
  | mk (type : String) (startPoint endPoint : Nat × Nat)
       (startByte endByte : Nat) (children : List TSNode)

/-- `SEMANTIC_NODES`, transcribed per language. -/
def semanticNodesTable : List (String × List String) :=
  [("python", ["function_definition", "class_definition",
      "async_function_definition"]),
   ("javascript", ["function_declaration", "class_declaration",
      "method_definition", "arrow_function", "function_expression"]),
   ("typescript", ["function_declaration", "class_declaration",
      "method_definition", "arrow_function", "function_expression",
      "interface_declaration", "type_alias_declaration"]),
   ("go", ["function_declaration", "method_declaration", "type_declaration"]),
   ("rust", ["function_definition", "struct_item", "enum_item", "impl_item",
      "trait_item"]),
   ("java", ["method_declaration", "class_declaration",
      "interface_declaration", "enum_declaration"]),
   ("c", ["function_definition", "struct_specifier", "enum_specifier"]),
   ("cpp", ["function_definition", "class_specifier", "struct_specifier",
      "namespace_definition"])]

/-- `SEMANTIC_NODES.get(language, set())`. -/
def semanticNodes (language : String) : List String :=
  (alookup language semanticNodesTable).getD []

/-- Python `s.replace(pat, repl)`: left-to-right, non-overlapping. -/
def replaceAll (pat repl : List Char) : List Char → List Char
  | [] => []
  | c :: rest =>
      if pat.isPrefixOf (c :: rest) ∧ pat ≠ [] then
        repl ++ replaceAll pat repl ((c :: rest).drop pat.length)
      else c :: replaceAll pat repl rest
termination_by l => l.length
decreasing_by
  · rename_i h
    have hp : pat.length ≠ 0 := fun he => h.2 (List.length_eq_zero.mp he)
    simp only [List.length_drop, List.length_cons]
    omega
  · simp only [List.length_cons]
    omega

/-- `node_type.replace("_definition", "").replace("_declaration",
"").replace("_item", "")`. -/
def stripNodeSuffixes (ty : String) : String :=
  String.mk (replaceAll "_item".data []
    (replaceAll "_declaration".data []
      (replaceAll "_definition".data [] ty.data)))

/-- `ASTChunker._get_node_name`: the first child whose type is
identifier-like (the later python-specific loop in the source is
redundant with this first loop). -/
def getNodeName (content : List Char) (children : List TSNode) :
    Option String :=
  match children.find? (fun c =>
      match c with
      | .mk ty _ _ _ _ _ => ty = "identifier" || ty = "name" ||
          ty = "property_identifier" || ty = "type_identifier") with
  | some (.mk _ _ _ sb eb _) => some (String.mk ((content.drop sb).take (eb - sb)))
  | none => none

/-- `ASTChunker._extract_chunks`'s `visit_node`: emit a chunk (with the
relaxed floor `max(20, min_chunk_size // 5)`) at semantic nodes and do not
descend; otherwise recurse into children. -/
def visitNode (semTypes : List String) (content : List Char)
    (path language : String) (minChunkSize : Nat) : TSNode → List CodeChunk
  | .mk ty sp ep sb eb children =>
      if ty ∈ semTypes then
        let chunkContent := (content.drop sb).take (eb - sb)
        let effectiveMin := max 20 (minChunkSize / 5)
        if effectiveMin ≤ chunkContent.length then
          [⟨chunkContent, path, sp.1 + 1, ep.1 + 1, language,
            stripNodeSuffixes ty, getNodeName content children⟩]
        else []
      else
        (children.attach.map (fun c =>
          visitNode semTypes content path language minChunkSize c.1)).flatten
termination_by n => sizeOf n
decreasing_by
  have := List.sizeOf_lt_of_mem c.2
  simp only [TSNode.mk.sizeOf_spec]
  omega

/-- `ASTChunker._extract_chunks`: traversal plus the whole-file `module`
fallback (`end_line = content.count("\n") + 1`). -/
def extractChunks (root : TSNode) (content : List Char)
    (path language : String) (minChunkSize : Nat) : List CodeChunk :=
  let chunks := visitNode (semanticNodes language) content path language
    minChunkSize root
  if chunks = [] ∧ isBlank content = false then
    [⟨content, path, 1, content.count '\n' + 1, language, "module", none⟩]
  else chunks

end Chunkers

end Codii

/-- **C8 (amended).** For every file content containing at least one
non-whitespace character, chunking returns at least one chunk — in both
the line-window chunker and the syntax-tree traversal, whenever the main
pass emits no chunk meeting the size floor, a single chunk with
`chunk_type = "module"` covering the whole file is emitted.  (A file that
is non-empty but all-whitespace yields no chunks; see the
counterexample.) -/
theorem C8_chunking_fallback (cfg : Codii.Chunkers.TextChunkerCfg)
    (content : List Char) (path language : String)
    (root : Codii.Chunkers.TSNode) (minCS : Nat)
    (h : Codii.FTS.isBlank content = false) :
    (Codii.Chunkers.textChunkFile cfg content path language ≠ [] ∧
      (Codii.Chunkers.textChunkCore cfg content path language = [] →
        Codii.Chunkers.textChunkFile cfg content path language =
          [⟨content, path, 1, (Codii.Chunkers.splitLines content).length,
            language, "module", none⟩])) ∧
    (Codii.Chunkers.extractChunks root content path language minCS ≠ [] ∧
      (Codii.Chunkers.visitNode (Codii.Chunkers.semanticNodes language)
          content path language minCS root = [] →
        Codii.Chunkers.extractChunks root content path language minCS =
          [⟨content, path, 1, content.count '\n' + 1, language,
            "module", none⟩])) := by
  constructor
  · have key : Codii.Chunkers.textChunkFile cfg content path language =
        (if Codii.Chunkers.textChunkCore cfg content path language = [] ∧
            Codii.FTS.isBlank content = false then
          [⟨content, path, 1, (Codii.Chunkers.splitLines content).length,
            language, "module", none⟩]
        else Codii.Chunkers.textChunkCore cfg content path language) := by
      rw [Codii.Chunkers.textChunkFile, if_neg (by simp [h])]
    by_cases hc : Codii.Chunkers.textChunkCore cfg content path language = []
    · rw [key, if_pos ⟨hc, h⟩]
      exact ⟨by simp, fun _ => rfl⟩
    · rw [key, if_neg (fun hcon => hc hcon.1)]
      exact ⟨hc, fun hcc => absurd hcc hc⟩
  · have key : Codii.Chunkers.extractChunks root content path language minCS =
        (if Codii.Chunkers.visitNode (Codii.Chunkers.semanticNodes language)
            content path language minCS root = [] ∧
            Codii.FTS.isBlank content = false then
          [⟨content, path, 1, content.count '\n' + 1, language,
            "module", none⟩]
        else Codii.Chunkers.visitNode (Codii.Chunkers.semanticNodes language)
          content path language minCS root) := by
      rw [Codii.Chunkers.extractChunks]
    by_cases hc : Codii.Chunkers.visitNode (Codii.Chunkers.semanticNodes language)
        content path language minCS root = []
    · rw [key, if_pos ⟨hc, h⟩]
      exact ⟨by simp, fun _ => rfl⟩
    · rw [key, if_neg (fun hcon => hc hcon.1)]
      exact ⟨hc, fun hcc => absurd hcc hc⟩

/-- Witness for C8 at a concrete input: the one-character file `x`, with a
bare root node of type `module` for the syntax-tree side. -/
theorem C8_chunking_fallback_witness :
    Codii.FTS.isBlank "x".data = false ∧
    ((Codii.Chunkers.textChunkFile {} "x".data "/f" "text" ≠ [] ∧
      (Codii.Chunkers.textChunkCore {} "x".data "/f" "text" = [] →
        Codii.Chunkers.textChunkFile {} "x".data "/f" "text" =
          [⟨"x".data, "/f", 1, (Codii.Chunkers.splitLines "x".data).length,
            "text", "module", none⟩])) ∧
    (Codii.Chunkers.extractChunks
        (Codii.Chunkers.TSNode.mk "module" (0, 0) (0, 0) 0 1 [])
        "x".data "/f" "text" 100 ≠ [] ∧
      (Codii.Chunkers.visitNode (Codii.Chunkers.semanticNodes "text")
          "x".data "/f" "text" 100
          (Codii.Chunkers.TSNode.mk "module" (0, 0) (0, 0) 0 1 []) = [] →
        Codii.Chunkers.extractChunks
            (Codii.Chunkers.TSNode.mk "module" (0, 0) (0, 0) 0 1 [])
            "x".data "/f" "text" 100 =
          [⟨"x".data, "/f", 1, "x".data.count '\n' + 1, "text",
            "module", none⟩]))) :=
  ⟨by decide,
    C8_chunking_fallback {} "x".data "/f" "text"
      (Codii.Chunkers.TSNode.mk "module" (0, 0) (0, 0) 0 1 []) 100 (by decide)⟩

/-- **C8 (counterexample).** The claim "for every non-empty file content,
chunking returns at least one chunk" is false for whitespace-only
content: the single-newline file is non-empty but `chunk_file` returns no
chunks (the `if not content.strip()` early return). -/
theorem C8_counterexample_blank_file :
    Codii.Chunkers.textChunkFile {} "\n".data "/f" "text" = [] ∧
    "\n".data ≠ ([] : List Char) := by
  exact ⟨by decide, by decide⟩

namespace Codii

/-! ## Reciprocal rank fusion (`src/codii/indexers/hybrid_search.py`)

Python floats are modelled as exact rationals. -/

namespace RRF

/-- The chunk payload carried by a search result. -/
structure Payload where
  content : String
  path : String
  startLine : Nat
  endLine : Nat
  language : String
  chunkType : String
deriving DecidableEq, Repr

/-- One row of `bm25_results` (the raw BM25 score is not used by the
fusion). -/
structure BRow where
  id : Nat
  payload : Payload
  score : ℚ := 0
deriving DecidableEq, Repr

/-- `SearchResult` (scores default to 0.0 as in the dataclass). -/
structure SearchResult where
  id : Nat
  payload : Payload
  bm25Score : ℚ := 0
  vectorScore : ℚ := 0
  combinedScore : ℚ := 0
  rerankScore : ℚ := 0
  rank : Nat := 0
deriving DecidableEq, Repr

/-- One iteration of the BM25 loop of `_reciprocal_rank_fusion`: create
the entry if absent, then set `bm25_score = bm25_weight / (k + rank)`. -/
def setB (w k : ℚ) (rank : Nat) (row : BRow) (m : List SearchResult) :
    List SearchResult :=
  if m.any (fun r => r.id = row.id) then
    m.map (fun r =>
      if r.id = row.id then { r with bm25Score := w / (k + (rank : ℚ)) } else r)
  else
    m ++ [{ id := row.id, payload := row.payload,
            bm25Score := w / (k + (rank : ℚ)) }]

/-- One iteration of the vector loop: update the entry's `vector_score`
if present; otherwise fetch the payload by chunk id
(`db.get_chunk_by_id`) and skip the result when it is missing. -/
def setV (w k : ℚ) (rank : Nat) (cid : Nat) (fetch : Nat → Option Payload)
    (m : List SearchResult) : List SearchResult :=
  if m.any (fun r => r.id = cid) then
    m.map (fun r =>
      if r.id = cid then { r with vectorScore := w / (k + (rank : ℚ)) } else r)
  else
    match fetch cid with
    | some payload =>
        m ++ [{ id := cid, payload := payload,
                vectorScore := w / (k + (rank : ℚ)) }]
    | none => m

/-- `enumerate(bm25_results, 1)` fold. -/
def processB (w k : ℚ) (rows : List BRow) (m : List SearchResult) :
    List SearchResult :=
  (rows.enumFrom 1).foldl (fun m ir => setB w k ir.1 ir.2 m) m

/-- `enumerate(vector_results, 1)` fold (`vector_results` are
`(chunk_id, distance)` pairs; the distance is unused by the fusion). -/
def processV (w k : ℚ) (vRows : List (Nat × ℚ)) (fetch : Nat → Option Payload)
    (m : List SearchResult) : List SearchResult :=
  (vRows.enumFrom 1).foldl (fun m ir => setV w k ir.1 ir.2.1 fetch m) m

/-- `HybridSearch._reciprocal_rank_fusion` (`k = 60` default): BM25 pass,
vector pass, then `combined_score = bm25_score + vector_score` over the
dict's values in insertion order. -/
def reciprocalRankFusion (bRows : List BRow) (vRows : List (Nat × ℚ))
    (bw vw : ℚ) (fetch : Nat → Option Payload) (k : ℚ := 60) :
    List SearchResult :=
  let m₁ := processB bw k bRows []
  let m₂ := processV vw k vRows fetch m₁
  m₂.map (fun r => { r with combinedScore := r.bm25Score + r.vectorScore })

/-- 0-based index of the first occurrence of `id`. -/
def idxOf (id : Nat) : List Nat → Option Nat
  | [] => none
  | x :: rest => if x = id then some 0 else (idxOf id rest).map (· + 1)

/-- The RRF contribution of one ranking to a chunk: `w / (k + r)` at
1-based rank `r`, and 0 for chunks absent from the ranking. -/
def contrib (w k : ℚ) (ids : List Nat) (id : Nat) : ℚ :=
  match idxOf id ids with
  | some i => w / (k + ((i + 1 : ℕ) : ℚ))
  | none => 0

theorem idxOf_eq_none {id : Nat} {l : List Nat} :
    idxOf id l = none ↔ id ∉ l := by
  induction l with
  | nil => simp [idxOf]
  | cons x rest ih =>
    by_cases h : x = id
    · subst h
      simp [idxOf]
    · rw [idxOf, if_neg h]
      constructor
      · intro hn
        have hrest : idxOf id rest = none := by
          cases hx : idxOf id rest with
          | none => rfl
          | some j => rw [hx] at hn; exact Option.noConfusion hn
        intro hmem
        rcases List.mem_cons.mp hmem with he | hm
        · exact h he.symm
        · exact (ih.mp hrest) hm
      · intro hn
        have hrest : idxOf id rest = none :=
          ih.mpr (fun hm => hn (List.mem_cons_of_mem _ hm))
        rw [hrest]
        rfl

theorem mem_of_idxOf_some {id : Nat} {l : List Nat} {i : Nat}
    (h : idxOf id l = some i) : id ∈ l := by
  by_contra hm
  rw [idxOf_eq_none.mpr hm] at h
  exact Option.noConfusion h

theorem idxOf_eq_none_of_not_mem {id : Nat} {l : List Nat} (h : id ∉ l) :
    idxOf id l = none := idxOf_eq_none.mpr h

theorem mem_enumFrom_snd {α : Type} {n : Nat} {l : List α} {i : Nat} {a : α}
    (h : (i, a) ∈ l.enumFrom n) : a ∈ l := by
  have : ((i, a).2 : α) ∈ (l.enumFrom n).map Prod.snd :=
    List.mem_map.mpr ⟨(i, a), h, rfl⟩
  rwa [List.enumFrom_map_snd] at this

theorem mem_enumFrom_idxOf {α : Type} (f : α → Nat) :
    ∀ (l : List α) (n i : Nat) (a : α), ((l.map f).Nodup) →
      (i, a) ∈ l.enumFrom n → n ≤ i ∧ idxOf (f a) (l.map f) = some (i - n) := by
  intro l
  induction l with
  | nil => intro n i a _ h; exact absurd h (List.not_mem_nil _)
  | cons x rest ih =>
    intro n i a hn h
    rw [show (x :: rest).enumFrom n = (n, x) :: rest.enumFrom (n + 1) from rfl] at h
    rcases List.mem_cons.mp h with heq | h'
    · have hi : i = n := congrArg Prod.fst heq
      have ha : a = x := congrArg Prod.snd heq
      subst hi
      subst ha
      refine ⟨le_refl _, ?_⟩
      rw [List.map_cons, idxOf, if_pos rfl, Nat.sub_self]
    · obtain ⟨hle, hidx⟩ := ih (n + 1) i a
        (by simpa using (List.nodup_cons.mp (by simpa using hn)).2) h'
      have hmem : f a ∈ rest.map f := mem_of_idxOf_some hidx
      have hne : f x ≠ f a := by
        intro he
        exact (List.nodup_cons.mp (by simpa using hn)).1 (he ▸ hmem)
      refine ⟨by omega, ?_⟩
      rw [List.map_cons, idxOf, if_neg hne, hidx, Option.map_some']
      congr 1
      omega

end RRF

end Codii

namespace Codii.RRF

theorem any_id_eq_false {m : List SearchResult} {id : Nat}
    (h : id ∉ m.map SearchResult.id) :
    m.any (fun r => r.id = id) = false := by
  rw [List.any_eq_false]
  intro r hr
  simp only [decide_eq_true_eq]
  exact fun he => h (List.mem_map.mpr ⟨r, hr, he⟩)

theorem any_id_eq_true {m : List SearchResult} {id : Nat}
    (h : id ∈ m.map SearchResult.id) :
    m.any (fun r => r.id = id) = true := by
  rw [List.any_eq_true]
  obtain ⟨r, hr, he⟩ := List.mem_map.mp h
  exact ⟨r, hr, by simp [he]⟩

theorem filterMap_congr' {α β : Type} (f g : α → Option β) (l : List α)
    (h : ∀ a ∈ l, f a = g a) : l.filterMap f = l.filterMap g := by
  induction l with
  | nil => rfl
  | cons a as ih =>
    rw [List.filterMap_cons, List.filterMap_cons, h a (List.mem_cons_self _ _),
      ih (fun a ha => h a (List.mem_cons_of_mem _ ha))]

theorem processB_go (w k : ℚ) :
    ∀ (rows : List BRow) (n : Nat) (acc : List SearchResult),
      (rows.map BRow.id).Nodup →
      (∀ r ∈ acc, ∀ row ∈ rows, r.id ≠ row.id) →
      (rows.enumFrom n).foldl (fun m ir => setB w k ir.1 ir.2 m) acc =
        acc ++ (rows.enumFrom n).map (fun ir =>
          ({ id := ir.2.id
             payload := ir.2.payload
             bm25Score := w / (k + (ir.1 : ℚ)) } : SearchResult)) := by
  intro rows
  induction rows with
  | nil =>
    intro n acc _ _
    show acc = acc ++ []
    rw [List.append_nil]
  | cons row rest ih =>
    intro n acc hn hdis
    rw [show (row :: rest).enumFrom n = (n, row) :: rest.enumFrom (n + 1)
      from rfl]
    rw [List.foldl_cons, List.map_cons]
    have hnotin : row.id ∉ acc.map SearchResult.id := by
      intro hmem
      obtain ⟨r, hr, he⟩ := List.mem_map.mp hmem
      exact hdis r hr row (List.mem_cons_self _ _) he
    have hstep : setB w k n row acc =
        acc ++ [({ id := row.id
                   payload := row.payload
                   bm25Score := w / (k + (n : ℚ)) } : SearchResult)] := by
      rw [setB, if_neg (by rw [any_id_eq_false hnotin]; simp)]
    rw [hstep]
    have hdis' : ∀ r ∈ acc ++ [({ id := row.id
                                  payload := row.payload
                                  bm25Score := w / (k + (n : ℚ)) } : SearchResult)],
        ∀ row' ∈ rest, r.id ≠ row'.id := by
      intro r hr row' hrow'
      rcases List.mem_append.mp hr with h | h
      · exact hdis r h row' (List.mem_cons_of_mem _ hrow')
      · simp only [List.mem_singleton] at h
        subst h
        intro he
        have : row'.id ∈ rest.map BRow.id := List.mem_map.mpr ⟨row', hrow', rfl⟩
        exact (List.nodup_cons.mp (by simpa using hn)).1 (he ▸ this)
    rw [ih (n + 1) _ (by simpa using (List.nodup_cons.mp (by simpa using hn)).2)
      hdis']
    simp [List.append_assoc]

end Codii.RRF

namespace Codii.RRF

/-- The cumulative effect of the vector pass on an entry already in the
map: set its `vector_score` from its rank in the vector list, or leave it
alone if absent. -/
def vUpd (w k : ℚ) (n : Nat) (vIds : List Nat) (r : SearchResult) :
    SearchResult :=
  match idxOf r.id vIds with
  | some i => { r with vectorScore := w / (k + ((n + i : Nat) : ℚ)) }
  | none => r

/-- A vector-only entry appended by the vector pass: skipped when the id
is already in the map or the payload fetch fails. -/
def vNewEntry (w k : ℚ) (fetch : Nat → Option Payload) (accIds : List Nat)
    (ir : Nat × (Nat × ℚ)) : Option SearchResult :=
  if ir.2.1 ∈ accIds then none
  else (fetch ir.2.1).map (fun p =>
    ({ id := ir.2.1
       payload := p
       vectorScore := w / (k + (ir.1 : ℚ)) } : SearchResult))

theorem vUpd_of_idx_some {w k : ℚ} {n : Nat} {vIds : List Nat}
    {r : SearchResult} {i : Nat} (h : idxOf r.id vIds = some i) :
    vUpd w k n vIds r = { r with vectorScore := w / (k + ((n + i : Nat) : ℚ)) } := by
  unfold vUpd
  rw [h]

theorem vUpd_of_idx_none {w k : ℚ} {n : Nat} {vIds : List Nat}
    {r : SearchResult} (h : idxOf r.id vIds = none) :
    vUpd w k n vIds r = r := by
  unfold vUpd
  rw [h]

theorem vUpd_shift {w k : ℚ} {n : Nat} {cid : Nat} {restIds : List Nat}
    {r : SearchResult} (hne : r.id ≠ cid) :
    vUpd w k (n + 1) restIds r = vUpd w k n (cid :: restIds) r := by
  have hcons : idxOf r.id (cid :: restIds) =
      (idxOf r.id restIds).map (· + 1) := by
    rw [idxOf, if_neg (fun he => hne he.symm)]
  cases hx : idxOf r.id restIds with
  | none =>
    rw [vUpd_of_idx_none hx, vUpd_of_idx_none (by rw [hcons, hx]; rfl)]
  | some i =>
    rw [vUpd_of_idx_some hx, vUpd_of_idx_some (by rw [hcons, hx]; rfl)]
    have : n + 1 + i = n + (i + 1) := by omega
    rw [this]

theorem map_id_eq_of_score_upd (acc : List SearchResult) (cid : Nat) (v : ℚ) :
    (acc.map (fun r =>
      if r.id = cid then { r with vectorScore := v } else r)).map
        SearchResult.id = acc.map SearchResult.id := by
  rw [List.map_map]
  apply List.map_congr_left
  intro r _
  by_cases h : r.id = cid <;> simp [h]

end Codii.RRF

namespace Codii.RRF

/-- The entry appended for a vector-only result with a fetched payload. -/
def mkVEntry (w k : ℚ) (n cid : Nat) (p : Payload) : SearchResult :=
  { id := cid
    payload := p
    vectorScore := w / (k + (n : ℚ)) }

theorem processV_go (w k : ℚ) (fetch : Nat → Option Payload) :
    ∀ (vl : List (Nat × ℚ)) (n : Nat) (acc : List SearchResult),
      (vl.map Prod.fst).Nodup → (acc.map SearchResult.id).Nodup →
      (vl.enumFrom n).foldl (fun m ir => setV w k ir.1 ir.2.1 fetch m) acc =
        acc.map (vUpd w k n (vl.map Prod.fst)) ++
        (vl.enumFrom n).filterMap
          (vNewEntry w k fetch (acc.map SearchResult.id)) := by
  intro vl
  induction vl with
  | nil =>
    intro n acc _ _
    show acc = acc.map (vUpd w k n []) ++ []
    rw [List.append_nil]
    have h1 : acc.map (vUpd w k n []) = acc.map id :=
      List.map_congr_left (fun r _ => vUpd_of_idx_none rfl)
    rw [h1, List.map_id]
  | cons hd rest ih =>
    obtain ⟨cid, d⟩ := hd
    intro n acc hvn han
    have hvn2 : (cid :: rest.map Prod.fst).Nodup := by simpa using hvn
    have hvn' : (rest.map Prod.fst).Nodup := (List.nodup_cons.mp hvn2).2
    have hcid_notin_rest : cid ∉ rest.map Prod.fst := (List.nodup_cons.mp hvn2).1
    rw [show ((cid, d) :: rest).enumFrom n = (n, (cid, d)) :: rest.enumFrom (n + 1)
      from rfl]
    rw [List.foldl_cons]
    by_cases hin : cid ∈ acc.map SearchResult.id
    · have hstep : setV w k ((n, (cid, d)) : Nat × (Nat × ℚ)).1
          ((n, (cid, d)) : Nat × (Nat × ℚ)).2.1 fetch acc =
          acc.map (fun r =>
            if r.id = cid then { r with vectorScore := w / (k + (n : ℚ)) }
            else r) := by
        show setV w k n cid fetch acc = _
        rw [setV, if_pos (any_id_eq_true hin)]
      rw [hstep]
      have hids := map_id_eq_of_score_upd acc cid (w / (k + (n : ℚ)))
      rw [ih (n + 1) _ hvn' (by rw [hids]; exact han)]
      rw [hids]
      have hhead : vNewEntry w k fetch (acc.map SearchResult.id) (n, (cid, d)) =
          none := by
        simp only [vNewEntry]
        rw [if_pos hin]
      rw [List.filterMap_cons, hhead]
      rw [List.map_map]
      congr 1
      apply List.map_congr_left
      intro r hr
      show vUpd w k (n + 1) (rest.map Prod.fst)
          (if r.id = cid then { r with vectorScore := w / (k + (n : ℚ)) } else r) =
        vUpd w k n (cid :: rest.map Prod.fst) r
      by_cases h : r.id = cid
      · rw [if_pos h]
        have hnone : idxOf
            ({ r with vectorScore := w / (k + (n : ℚ)) } : SearchResult).id
            (rest.map Prod.fst) = none := by
          show idxOf r.id (rest.map Prod.fst) = none
          rw [h]
          exact idxOf_eq_none_of_not_mem hcid_notin_rest
        rw [vUpd_of_idx_none hnone]
        have hsome : idxOf r.id (cid :: rest.map Prod.fst) = some 0 := by
          rw [idxOf, if_pos h.symm]
        rw [vUpd_of_idx_some hsome]
        simp
      · rw [if_neg h]
        exact vUpd_shift h
    · cases hf : fetch cid with
      | none =>
        have hstep : setV w k ((n, (cid, d)) : Nat × (Nat × ℚ)).1
            ((n, (cid, d)) : Nat × (Nat × ℚ)).2.1 fetch acc = acc := by
          show setV w k n cid fetch acc = acc
          rw [setV, if_neg (by rw [any_id_eq_false hin]; simp), hf]
        rw [hstep, ih (n + 1) acc hvn' han]
        have hhead : vNewEntry w k fetch (acc.map SearchResult.id) (n, (cid, d)) =
            none := by
          simp only [vNewEntry]
          rw [if_neg hin, hf]
          rfl
        rw [List.filterMap_cons, hhead]
        congr 1
        apply List.map_congr_left
        intro r hr
        have hne : r.id ≠ cid := fun he => hin (he ▸ List.mem_map.mpr ⟨r, hr, rfl⟩)
        exact vUpd_shift hne
      | some p =>
        have hstep : setV w k ((n, (cid, d)) : Nat × (Nat × ℚ)).1
            ((n, (cid, d)) : Nat × (Nat × ℚ)).2.1 fetch acc =
            acc ++ [mkVEntry w k n cid p] := by
          show setV w k n cid fetch acc = _
          rw [setV, if_neg (by rw [any_id_eq_false hin]; simp), hf]
          rfl
        have hids' : (acc ++ [mkVEntry w k n cid p]).map SearchResult.id =
            acc.map SearchResult.id ++ [cid] := by
          rw [List.map_append]
          rfl
        have han' : ((acc ++ [mkVEntry w k n cid p]).map SearchResult.id).Nodup := by
          rw [hids', List.nodup_append]
          exact ⟨han, List.nodup_singleton _, by simpa using hin⟩
        rw [hstep, ih (n + 1) _ hvn' han', hids']
        have hmkv : vUpd w k (n + 1) (rest.map Prod.fst) (mkVEntry w k n cid p) =
            mkVEntry w k n cid p := by
          apply vUpd_of_idx_none
          show idxOf cid (rest.map Prod.fst) = none
          exact idxOf_eq_none_of_not_mem hcid_notin_rest
        have hfm : (rest.enumFrom (n + 1)).filterMap
            (vNewEntry w k fetch (acc.map SearchResult.id ++ [cid])) =
            (rest.enumFrom (n + 1)).filterMap
              (vNewEntry w k fetch (acc.map SearchResult.id)) := by
          apply filterMap_congr'
          intro ir hir
          have h2 : ir.2 ∈ rest := mem_enumFrom_snd hir
          have hmem : ir.2.1 ∈ rest.map Prod.fst :=
            List.mem_map.mpr ⟨ir.2, h2, rfl⟩
          have hne : ir.2.1 ≠ cid := fun he => hcid_notin_rest (he ▸ hmem)
          simp only [vNewEntry]
          by_cases hacc : ir.2.1 ∈ acc.map SearchResult.id
          · rw [if_pos (List.mem_append.mpr (Or.inl hacc)), if_pos hacc]
          · rw [if_neg hacc, if_neg (by
              intro hcon
              rcases List.mem_append.mp hcon with h | h
              · exact hacc h
              · exact hne (by simpa using h))]
        have hhead : vNewEntry w k fetch (acc.map SearchResult.id) (n, (cid, d)) =
            some (mkVEntry w k n cid p) := by
          simp only [vNewEntry]
          rw [if_neg hin, hf]
          rfl
        rw [List.filterMap_cons, hhead, List.map_append, hfm]
        rw [show [mkVEntry w k n cid p].map (vUpd w k (n + 1) (rest.map Prod.fst)) =
            [mkVEntry w k n cid p] from by rw [List.map_singleton, hmkv]]
        have hmap : acc.map (vUpd w k (n + 1) (rest.map Prod.fst)) =
            acc.map (vUpd w k n (cid :: rest.map Prod.fst)) := by
          apply List.map_congr_left
          intro r hr
          have hne : r.id ≠ cid :=
            fun he => hin (he ▸ List.mem_map.mpr ⟨r, hr, rfl⟩)
          exact vUpd_shift hne
        rw [hmap]
        simp [List.append_assoc]

end Codii.RRF

namespace Codii.RRF

theorem contrib_of_some {w k : ℚ} {ids : List Nat} {id i : Nat}
    (h : idxOf id ids = some i) :
    contrib w k ids id = w / (k + ((i + 1 : Nat) : ℚ)) := by
  unfold contrib
  rw [h]

theorem contrib_of_none {w k : ℚ} {ids : List Nat} {id : Nat}
    (h : idxOf id ids = none) : contrib w k ids id = 0 := by
  unfold contrib
  rw [h]
/-- The map entry created by the BM25 pass at rank `n`. -/
def mkBEntry (w k : ℚ) (n : Nat) (row : BRow) : SearchResult :=
  { id := row.id
    payload := row.payload
    bm25Score := w / (k + (n : ℚ)) }

theorem rrf_mem_scores (bRows : List BRow) (vRows : List (Nat × ℚ))
    (bw vw : ℚ) (fetch : Nat → Option Payload)
    (hb : (bRows.map BRow.id).Nodup) (hv : (vRows.map Prod.fst).Nodup) :
    ∀ r ∈ reciprocalRankFusion bRows vRows bw vw fetch,
      r.combinedScore =
        contrib bw 60 (bRows.map BRow.id) r.id +
        contrib vw 60 (vRows.map Prod.fst) r.id := by
  intro r hr
  have hm₁ : processB bw 60 bRows [] =
      (bRows.enumFrom 1).map (fun ir => mkBEntry bw 60 ir.1 ir.2) := by
    rw [processB,
      processB_go bw 60 bRows 1 [] hb (fun r hr => absurd hr (List.not_mem_nil _)),
      List.nil_append]
    rfl
  have hm₁ids : (processB bw 60 bRows []).map SearchResult.id =
      bRows.map BRow.id := by
    rw [hm₁, List.map_map]
    have h2 : (bRows.enumFrom 1).map
        (SearchResult.id ∘ fun ir => mkBEntry bw 60 ir.1 ir.2) =
        (bRows.enumFrom 1).map (BRow.id ∘ Prod.snd) :=
      List.map_congr_left (fun ir _ => rfl)
    rw [h2, ← List.map_map, List.enumFrom_map_snd]
  have hm₂ : processV vw 60 vRows fetch (processB bw 60 bRows []) =
      (processB bw 60 bRows []).map (vUpd vw 60 1 (vRows.map Prod.fst)) ++
      (vRows.enumFrom 1).filterMap
        (vNewEntry vw 60 fetch (bRows.map BRow.id)) := by
    rw [processV,
      processV_go vw 60 fetch vRows 1 _ hv (by rw [hm₁ids]; exact hb), hm₁ids]
  have hr' : r ∈ (processV vw 60 vRows fetch (processB bw 60 bRows [])).map
      (fun r => { r with combinedScore := r.bm25Score + r.vectorScore }) := hr
  obtain ⟨r₀, hr₀, rfl⟩ := List.mem_map.mp hr'
  rw [hm₂] at hr₀
  show r₀.bm25Score + r₀.vectorScore =
    contrib bw 60 (bRows.map BRow.id) r₀.id +
    contrib vw 60 (vRows.map Prod.fst) r₀.id
  rcases List.mem_append.mp hr₀ with hA | hB
  · obtain ⟨rB, hrB, rfl⟩ := List.mem_map.mp hA
    rw [hm₁] at hrB
    obtain ⟨ir, hir, rfl⟩ := List.mem_map.mp hrB
    obtain ⟨hile, hidxB⟩ := mem_enumFrom_idxOf BRow.id bRows 1 ir.1 ir.2 hb hir
    have hsub : ir.1 - 1 + 1 = ir.1 := by omega
    cases hvx : idxOf ir.2.id (vRows.map Prod.fst) with
    | some j =>
      rw [vUpd_of_idx_some (r := mkBEntry bw 60 ir.1 ir.2) hvx]
      show bw / (60 + (ir.1 : ℚ)) + vw / (60 + ((1 + j : Nat) : ℚ)) =
        contrib bw 60 (bRows.map BRow.id) ir.2.id +
        contrib vw 60 (vRows.map Prod.fst) ir.2.id
      rw [contrib_of_some hidxB, contrib_of_some hvx, hsub, Nat.add_comm 1 j]
    | none =>
      rw [vUpd_of_idx_none (r := mkBEntry bw 60 ir.1 ir.2) hvx]
      show bw / (60 + (ir.1 : ℚ)) + 0 =
        contrib bw 60 (bRows.map BRow.id) ir.2.id +
        contrib vw 60 (vRows.map Prod.fst) ir.2.id
      rw [contrib_of_some hidxB, contrib_of_none hvx, hsub]
  · obtain ⟨ir, hir, hsome⟩ := List.mem_filterMap.mp hB
    simp only [vNewEntry] at hsome
    by_cases hmem : ir.2.1 ∈ bRows.map BRow.id
    · rw [if_pos hmem] at hsome
      exact absurd hsome (by simp)
    · rw [if_neg hmem] at hsome
      obtain ⟨p, hp, hpr⟩ := Option.map_eq_some'.mp hsome
      obtain ⟨hile, hidxV⟩ := mem_enumFrom_idxOf Prod.fst vRows 1 ir.1 ir.2 hv hir
      have hsub : ir.1 - 1 + 1 = ir.1 := by omega
      subst hpr
      show 0 + vw / (60 + (ir.1 : ℚ)) =
        contrib bw 60 (bRows.map BRow.id) ir.2.1 +
        contrib vw 60 (vRows.map Prod.fst) ir.2.1
      rw [contrib_of_none (idxOf_eq_none_of_not_mem hmem),
        contrib_of_some hidxV, hsub]

end Codii.RRF

/-- **C3.** In `_reciprocal_rank_fusion` (duplicate-free result ids, as
the SQL and ANN retrievers produce), every returned chunk's
`combined_score` is `bm25_weight/(60 + its 1-based BM25 rank)` plus
`vector_weight/(60 + its 1-based vector rank)`, a component being 0 when
the chunk is absent from that list; consequently, with positive weights
(default 0.5/0.5), if chunk A ranks strictly better than chunk B in both
lists then A's combined score is strictly higher. -/
theorem C3_rrf_combined_score_monotone (bRows : List Codii.RRF.BRow)
    (vRows : List (Nat × ℚ)) (bw vw : ℚ)
    (fetch : Nat → Option Codii.RRF.Payload)
    (hb : (bRows.map Codii.RRF.BRow.id).Nodup)
    (hv : (vRows.map Prod.fst).Nodup)
    (hbw : 0 < bw) (hvw : 0 < vw) :
    (∀ r ∈ Codii.RRF.reciprocalRankFusion bRows vRows bw vw fetch,
      r.combinedScore =
        Codii.RRF.contrib bw 60 (bRows.map Codii.RRF.BRow.id) r.id +
        Codii.RRF.contrib vw 60 (vRows.map Prod.fst) r.id) ∧
    (∀ rA ∈ Codii.RRF.reciprocalRankFusion bRows vRows bw vw fetch,
     ∀ rB ∈ Codii.RRF.reciprocalRankFusion bRows vRows bw vw fetch,
     ∀ iA iB jA jB : Nat,
      Codii.RRF.idxOf rA.id (bRows.map Codii.RRF.BRow.id) = some iA →
      Codii.RRF.idxOf rB.id (bRows.map Codii.RRF.BRow.id) = some iB →
      Codii.RRF.idxOf rA.id (vRows.map Prod.fst) = some jA →
      Codii.RRF.idxOf rB.id (vRows.map Prod.fst) = some jB →
      iA < iB → jA < jB → rB.combinedScore < rA.combinedScore) := by
  have hscores := Codii.RRF.rrf_mem_scores bRows vRows bw vw fetch hb hv
  refine ⟨hscores, ?_⟩
  intro rA hrA rB hrB iA iB jA jB hiA hiB hjA hjB hilt hjlt
  rw [hscores rA hrA, hscores rB hrB,
    Codii.RRF.contrib_of_some hiA, Codii.RRF.contrib_of_some hiB,
    Codii.RRF.contrib_of_some hjA, Codii.RRF.contrib_of_some hjB]
  have hlt1 : bw / (60 + ((iB + 1 : Nat) : ℚ)) <
      bw / (60 + ((iA + 1 : Nat) : ℚ)) := by
    apply div_lt_div_of_pos_left hbw
    · positivity
    · have hc : ((iA + 1 : Nat) : ℚ) < ((iB + 1 : Nat) : ℚ) := by
        exact_mod_cast Nat.add_lt_add_right hilt 1
      linarith
  have hlt2 : vw / (60 + ((jB + 1 : Nat) : ℚ)) <
      vw / (60 + ((jA + 1 : Nat) : ℚ)) := by
    apply div_lt_div_of_pos_left hvw
    · positivity
    · have hc : ((jA + 1 : Nat) : ℚ) < ((jB + 1 : Nat) : ℚ) := by
        exact_mod_cast Nat.add_lt_add_right hjlt 1
      linarith
  exact add_lt_add hlt1 hlt2

/-- A sample chunk payload for the C3 witness. -/
def Codii.RRF.samplePayload : Codii.RRF.Payload :=
  ⟨"def f: pass", "/r/a.py", 1, 1, "python", "function"⟩

/-- Witness for C3 at a concrete corpus: chunks 1 and 2 ranked in the
same order by both retrievers, weights 0.5/0.5. -/
theorem C3_rrf_combined_score_monotone_witness :
    (([(⟨1, Codii.RRF.samplePayload, 0⟩ : Codii.RRF.BRow),
       ⟨2, Codii.RRF.samplePayload, 0⟩].map Codii.RRF.BRow.id).Nodup ∧
     (([((1 : Nat), (1 : ℚ)/10), ((2 : Nat), (3 : ℚ)/10)].map Prod.fst).Nodup) ∧
     (0 : ℚ) < 1/2 ∧ (0 : ℚ) < 1/2) ∧
    ((∀ r ∈ Codii.RRF.reciprocalRankFusion
        [⟨1, Codii.RRF.samplePayload, 0⟩, ⟨2, Codii.RRF.samplePayload, 0⟩]
        [((1 : Nat), (1 : ℚ)/10), ((2 : Nat), (3 : ℚ)/10)]
        (1/2) (1/2) (fun _ => none),
      r.combinedScore =
        Codii.RRF.contrib (1/2) 60
          ([(⟨1, Codii.RRF.samplePayload, 0⟩ : Codii.RRF.BRow),
            ⟨2, Codii.RRF.samplePayload, 0⟩].map Codii.RRF.BRow.id) r.id +
        Codii.RRF.contrib (1/2) 60
          ([((1 : Nat), (1 : ℚ)/10), ((2 : Nat), (3 : ℚ)/10)].map Prod.fst) r.id) ∧
    (∀ rA ∈ Codii.RRF.reciprocalRankFusion
        [⟨1, Codii.RRF.samplePayload, 0⟩, ⟨2, Codii.RRF.samplePayload, 0⟩]
        [((1 : Nat), (1 : ℚ)/10), ((2 : Nat), (3 : ℚ)/10)]
        (1/2) (1/2) (fun _ => none),
     ∀ rB ∈ Codii.RRF.reciprocalRankFusion
        [⟨1, Codii.RRF.samplePayload, 0⟩, ⟨2, Codii.RRF.samplePayload, 0⟩]
        [((1 : Nat), (1 : ℚ)/10), ((2 : Nat), (3 : ℚ)/10)]
        (1/2) (1/2) (fun _ => none),
     ∀ iA iB jA jB : Nat,
      Codii.RRF.idxOf rA.id
        ([(⟨1, Codii.RRF.samplePayload, 0⟩ : Codii.RRF.BRow),
          ⟨2, Codii.RRF.samplePayload, 0⟩].map Codii.RRF.BRow.id) = some iA →
      Codii.RRF.idxOf rB.id
        ([(⟨1, Codii.RRF.samplePayload, 0⟩ : Codii.RRF.BRow),
          ⟨2, Codii.RRF.samplePayload, 0⟩].map Codii.RRF.BRow.id) = some iB →
      Codii.RRF.idxOf rA.id
        ([((1 : Nat), (1 : ℚ)/10), ((2 : Nat), (3 : ℚ)/10)].map Prod.fst) = some jA →
      Codii.RRF.idxOf rB.id
        ([((1 : Nat), (1 : ℚ)/10), ((2 : Nat), (3 : ℚ)/10)].map Prod.fst) = some jB →
      iA < iB → jA < jB → rB.combinedScore < rA.combinedScore)) :=
  ⟨⟨by decide, by decide, by norm_num, by norm_num⟩,
    C3_rrf_combined_score_monotone
      [⟨1, Codii.RRF.samplePayload, 0⟩, ⟨2, Codii.RRF.samplePayload, 0⟩]
      [((1 : Nat), (1 : ℚ)/10), ((2 : Nat), (3 : ℚ)/10)]
      (1/2) (1/2) (fun _ => none)
      (by decide) (by decide) (by norm_num) (by norm_num)⟩
